import Mathlib

/-!
# Verification of the Memory Engine (memory-engine.js, v2.0)

A shallow embedding of the core memory engine: the entity model, the hybrid
search/ranking pipeline, deduplication and merge, chunking, the relationship
graph, and lifecycle operations (soft delete / restore / cleanup).

Modelling conventions:
* SQLite rows become Lean structures; tables become lists held in `EngineState`.
  The `id TEXT PRIMARY KEY` constraint is modelled by an explicit duplicate
  check in `insertMemory` (insert fails on a duplicate id, and the enclosing
  better-sqlite3 transaction rolls back, leaving the stored tables unchanged).
* Timestamps (`CURRENT_TIMESTAMP`, `Date.now()`, `toISOString`) are modelled as
  abstract instants: integers (milliseconds), compared chronologically.
  Engine operations take the current instant `now` as an explicit argument.
* JavaScript floating-point arithmetic is modelled as exact arithmetic:
  stored vectors and lexical scores are rationals, derived scores
  (cosine similarity, decay, final ranking score) are real numbers.
* `Array.prototype.sort` is stable (ECMAScript 2019), so JS sorts with a
  score comparator are modelled as stable insertion sorts; `ORDER BY` on a
  single SQL column is likewise modelled as a stable sort on that column.
* The external embedding provider (`options.embeddingFn`) and the SQLite FTS5
  backend (`MATCH` and its BM25 `rank`, which live outside the repository) are
  parameters: an optional `String -> List Rat` function, and an abstract
  match predicate / rank function over rows.  Everything else is translated
  from memory-engine.js.
-/

open Classical

/-! ## Enumerations (CHECK constraints of the memories table) -/

/-- `memory_type TEXT CHECK(memory_type IN ('static','dynamic','episodic','semantic'))`. -/
inductive MemoryType where
  | static | dynamic | episodic | semantic
deriving DecidableEq, Repr

/-- `importance TEXT CHECK(importance IN ('critical','high','normal','low'))`. -/
inductive Importance where
  | critical | high | normal | low
deriving DecidableEq, Repr

instance : BEq MemoryType := ⟨fun a b => decide (a = b)⟩
instance : LawfulBEq MemoryType := ⟨by intro a b h; exact of_decide_eq_true h, by intro a; simp [BEq.beq]⟩
instance : BEq Importance := ⟨fun a b => decide (a = b)⟩
instance : LawfulBEq Importance := ⟨by intro a b h; exact of_decide_eq_true h, by intro a; simp [BEq.beq]⟩

/-- `IMPORTANCE_WEIGHTS = { critical: 4, high: 3, normal: 2, low: 1 }`. -/
def IMPORTANCE_WEIGHTS : Importance → Nat
  | .critical => 4
  | .high => 3
  | .normal => 2
  | .low => 1

/-- `DECAY_HALF_LIFE_DAYS = 30`. -/
def DECAY_HALF_LIFE_DAYS : ℝ := 30

/-- `SIMILARITY_MERGE_THRESHOLD = 0.85`. -/
def SIMILARITY_MERGE_THRESHOLD : ℝ := 0.85

/-- `MAX_CHUNK_LENGTH = 1500` (characters per chunk for long texts). -/
def MAX_CHUNK_LENGTH : Nat := 1500

/-- `CHUNK_OVERLAP = 200` (overlap between chunks, in characters). -/
def CHUNK_OVERLAP : Nat := 200

/-! ## Data model: rows of the four tables -/

/-- One row of the `memories` table. -/
structure Memory where
  id : String
  content : String
  summary : Option String
  memory_type : MemoryType
  importance : Importance
  source : String
  /-- `metadata TEXT DEFAULT "\x7b\x7d"`: a JSON object, modelled as an
  association list with distinct keys; values are modelled as strings. -/
  metadata : List (String × String)
  /-- `embedding BLOB`: an optional vector (`Float32Array` bytes), modelled
  with exact rational entries. -/
  embedding : Option (List ℚ)
  access_count : Nat
  last_accessed_at : Option Int
  is_deleted : Bool
  created_at : Int
  updated_at : Int
deriving DecidableEq, Repr

/-- One row of the `memory_links` table (`PRIMARY KEY (source_id, target_id)`). -/
structure LinkRow where
  source_id : String
  target_id : String
  relation : String
  strength : ℚ
deriving DecidableEq, Repr

/-- The stored tables plus the in-memory embedding cache of one engine
instance.  `memory_tags` rows are `(memory_id, tag)` pairs; the embedding
cache is kept in Map insertion order (oldest first, newest appended). -/
structure EngineState where
  memories : List Memory
  memTags : List (String × String)
  links : List LinkRow
  embeddingCache : List (String × List ℚ)
deriving DecidableEq, Repr

/-- Engine construction options that the claims depend on: the optional
external embedding function, the content-hash function used as cache key
(`_hashText`), the cache bound, and whether the SQLite build has FTS5. -/
structure EngineConfig where
  embedFn : Option (String → List ℚ)
  hashFn : String → String
  embeddingCacheMaxSize : Nat
  hasFTS : Bool

/-! ## Stable sorting (JS `Array.prototype.sort` and SQL `ORDER BY`) -/

/-- Insert `x` after every earlier element `y` with `keep y x` (the stable
position for a sort whose comparator leaves `y` before `x`). -/
def insertKeep (keep : α → α → Prop) [DecidableRel keep] (x : α) : List α → List α
  | [] => [x]
  | y :: ys => if keep y x then y :: insertKeep keep x ys else x :: y :: ys

/-- Stable sort: fold the list left to right, inserting each element into the
accumulator at its stable position. -/
def sortKeep (keep : α → α → Prop) [DecidableRel keep] (l : List α) : List α :=
  l.foldl (fun acc x => insertKeep keep x acc) []

theorem mem_insertKeep (keep : α → α → Prop) [DecidableRel keep] (x a : α) :
    ∀ l : List α, a ∈ insertKeep keep x l ↔ a = x ∨ a ∈ l := by
  intro l
  induction l with
  | nil => simp [insertKeep]
  | cons y ys ih =>
    by_cases h : keep y x
    · simp only [insertKeep, if_pos h, List.mem_cons, ih]
      try tauto
    · simp only [insertKeep, if_neg h, List.mem_cons]
      try tauto

theorem mem_sortKeep (keep : α → α → Prop) [DecidableRel keep] (l : List α) (a : α) :
    a ∈ sortKeep keep l ↔ a ∈ l := by
  suffices h : ∀ acc : List α, a ∈ l.foldl (fun acc x => insertKeep keep x acc) acc ↔ a ∈ acc ∨ a ∈ l by
    have := h []
    simpa [sortKeep] using this
  induction l with
  | nil => intro acc; simp
  | cons y ys ih =>
    intro acc
    simp only [List.foldl_cons, ih, mem_insertKeep, List.mem_cons]
    tauto

theorem pairwise_insertKeep (keep : α → α → Prop) [DecidableRel keep]
    (htot : ∀ a b, keep a b ∨ keep b a) (htrans : ∀ {a b c}, keep a b → keep b c → keep a c)
    (x : α) : ∀ l : List α, l.Pairwise keep → (insertKeep keep x l).Pairwise keep := by
  intro l
  induction l with
  | nil => intro _; simp [insertKeep]
  | cons y ys ih =>
    intro hp
    rcases List.pairwise_cons.mp hp with ⟨hy, hys⟩
    by_cases h : keep y x
    · simp only [insertKeep, if_pos h]
      refine List.pairwise_cons.mpr ⟨?_, ih hys⟩
      intro b hb
      rcases (mem_insertKeep keep x b ys).mp hb with rfl | hb
      · exact h
      · exact hy b hb
    · have hxy : keep x y := (htot x y).resolve_right (fun hyx => h hyx)
      simp only [insertKeep, if_neg h]
      refine List.pairwise_cons.mpr ⟨?_, hp⟩
      intro b hb
      rcases List.mem_cons.mp hb with rfl | hb
      · exact hxy
      · exact htrans hxy (hy b hb)

theorem pairwise_sortKeep (keep : α → α → Prop) [DecidableRel keep]
    (htot : ∀ a b, keep a b ∨ keep b a) (htrans : ∀ {a b c}, keep a b → keep b c → keep a c)
    (l : List α) : (sortKeep keep l).Pairwise keep := by
  suffices h : ∀ acc : List α, acc.Pairwise keep →
      (l.foldl (fun acc x => insertKeep keep x acc) acc).Pairwise keep by
    exact h [] (by simp)
  induction l with
  | nil => intro acc hacc; simpa using hacc
  | cons y ys ih =>
    intro acc hacc
    exact ih _ (pairwise_insertKeep keep htot htrans y acc hacc)

theorem length_insertKeep (keep : α → α → Prop) [DecidableRel keep] (x : α) :
    ∀ l : List α, (insertKeep keep x l).length = l.length + 1 := by
  intro l
  induction l with
  | nil => simp [insertKeep]
  | cons y ys ih =>
    by_cases h : keep y x <;> simp [insertKeep, h, ih]

theorem length_sortKeep (keep : α → α → Prop) [DecidableRel keep] (l : List α) :
    (sortKeep keep l).length = l.length := by
  suffices h : ∀ acc : List α, (l.foldl (fun acc x => insertKeep keep x acc) acc).length
      = acc.length + l.length by
    simpa [sortKeep] using h []
  induction l with
  | nil => intro acc; simp
  | cons y ys ih =>
    intro acc
    simp [List.foldl_cons, ih, length_insertKeep]
    omega

/-! ## Mutation primitives (prepared statements) -/

/-- The `softDelete` prepared statement:
`UPDATE memories SET is_deleted = 1, updated_at = CURRENT_TIMESTAMP WHERE id = ?`. -/
def softDeleteRun (id : String) (now : Int) (s : EngineState) : EngineState :=
  { s with memories := s.memories.map (fun m =>
      if m.id == id then { m with is_deleted := true, updated_at := now } else m) }

/-- Result object of `delete` / `restore` / `link`: `{ success: true }`
(the source always reports success; there is no not-found branch). -/
structure SuccessResult where
  success : Bool
deriving DecidableEq, Repr

/-- `restore(id)`:
`UPDATE memories SET is_deleted = 0, updated_at = CURRENT_TIMESTAMP WHERE id = ?`;
the method returns `{ success: true }` unconditionally, whether or not a row
was affected. -/
def restoreRun (id : String) (now : Int) (s : EngineState) :
    SuccessResult × EngineState :=
  (⟨true⟩, { s with memories := s.memories.map (fun m =>
      if m.id == id then { m with is_deleted := false, updated_at := now } else m) })

/-- The `hardDelete` prepared statement: `DELETE FROM memories WHERE id = ?`;
`ON DELETE CASCADE` removes the row's tag associations and edges. -/
def hardDeleteRun (id : String) (s : EngineState) : EngineState :=
  { s with memories := s.memories.filter (fun m => !(m.id == id)),
           memTags := s.memTags.filter (fun p => !(p.1 == id)),
           links := s.links.filter (fun l => !(l.source_id == id) && !(l.target_id == id)) }

/-- `delete(id, { hard })`: hard-delete removes the row (and its FTS entry),
soft delete marks `is_deleted = 1`; both return `{ success: true }`. -/
def deleteRun (id : String) (hard : Bool) (now : Int) (s : EngineState) :
    SuccessResult × EngineState :=
  if hard then (⟨true⟩, hardDeleteRun id s) else (⟨true⟩, softDeleteRun id now s)

/-! ## Maintenance: `cleanup(maxAgeDays, dryRun)` -/

/-- The projected columns of the cleanup candidate query
(`SELECT id, content, memory_type, updated_at FROM memories ...`). -/
structure StaleRow where
  id : String
  content : String
  memory_type : MemoryType
  updated_at : Int
deriving DecidableEq, Repr

/-- Return value of `cleanup`: `{ wouldDelete, items }` in dry-run mode,
`{ deleted }` otherwise. -/
inductive CleanupResult where
  | dry (wouldDelete : Nat) (items : List StaleRow)
  | done (deleted : Nat)
deriving DecidableEq, Repr

/-- The WHERE clause of the cleanup candidate query:
`memory_type = 'dynamic' AND is_deleted = 0 AND updated_at < cutoff
 AND importance NOT IN ('critical','high') AND access_count < 3`. -/
def stalePred (cutoff : Int) (m : Memory) : Bool :=
  m.memory_type == .dynamic && m.is_deleted == false && decide (m.updated_at < cutoff)
    && !(m.importance == .critical) && !(m.importance == .high) && decide (m.access_count < 3)

/-- `cleanup({ maxAgeDays, dryRun })`: select the stale rows below the cutoff
`Date.now() - maxAgeDays*24*60*60*1000`; in dry-run mode report them without
mutating, otherwise soft-delete each selected id inside one transaction. -/
def cleanup (maxAgeDays : Nat) (dryRun : Bool) (now : Int) (s : EngineState) :
    CleanupResult × EngineState :=
  let cutoff : Int := now - (maxAgeDays : Int) * (24 * 60 * 60 * 1000)
  let stale := s.memories.filter (stalePred cutoff)
  if dryRun then
    (.dry stale.length (stale.map (fun m => StaleRow.mk m.id m.content m.memory_type m.updated_at)), s)
  else
    (.done stale.length, stale.foldl (fun acc row => softDeleteRun row.id now acc) s)

/-! ## Embedding cache: `_getEmbedding` -/

/-- `Map.has` / `Map.get` on the insertion-ordered cache list. -/
def cacheLookup (cache : List (String × List ℚ)) (h : String) : Option (List ℚ) :=
  (cache.find? (fun p => p.1 == h)).map (·.2)

/-- `_getEmbedding(text)`: return the cached vector for `_hashText(text)` if
present; otherwise call the external embedding function, evict the
oldest-inserted entry when the cache is full, and append the new entry. -/
def getEmbedding (ef : String → List ℚ) (hashFn : String → String) (maxSize : Nat)
    (cache : List (String × List ℚ)) (text : String) : List ℚ × List (String × List ℚ) :=
  let h := hashFn text
  match cacheLookup cache h with
  | some v => (v, cache)
  | none =>
    let vec := ef text
    let cache1 := if maxSize ≤ cache.length then cache.drop 1 else cache
    (vec, cache1 ++ [(h, vec)])

/-! ## C7: cleanup selects exactly the stale set -/

/-- One composed soft-delete step: soft-deleting by `r.id` and then by every
id of `rest` acts on a row like soft-deleting by every id of `r :: rest`. -/
theorem softDelete_step (now : Int) (r : Memory) (rest : List Memory) (m : Memory) :
    (fun mm => if rest.any (fun r2 => mm.id == r2.id)
        then { mm with is_deleted := true, updated_at := now } else mm)
      ((fun mm => if mm.id == r.id
        then { mm with is_deleted := true, updated_at := now } else mm) m)
    = if (r :: rest).any (fun r2 => m.id == r2.id)
        then { m with is_deleted := true, updated_at := now } else m := by
  by_cases hm : m.id == r.id
  · by_cases h2 : rest.any (fun r2 => m.id == r2.id) <;>
      simp [hm, h2]
  · by_cases h2 : rest.any (fun r2 => m.id == r2.id) <;>
      simp [hm, h2]

/-- The cleanup soft-delete loop rewrites the memories table pointwise:
a row is marked deleted exactly when its id occurs among the selected rows. -/
theorem cleanup_fold_memories (now : Int) :
    ∀ (rows : List Memory) (s : EngineState),
      (rows.foldl (fun acc row => softDeleteRun row.id now acc) s).memories
        = s.memories.map (fun m => if rows.any (fun r => m.id == r.id)
            then { m with is_deleted := true, updated_at := now } else m) := by
  intro rows
  induction rows with
  | nil =>
    intro s
    simp
  | cons r rest ih =>
    intro s
    rw [List.foldl_cons, ih]
    simp only [softDeleteRun, List.map_map]
    refine List.map_congr_left ?_
    intro m _
    exact softDelete_step now r rest m

/-- The cleanup soft-delete loop leaves every other table and the embedding
cache unchanged. -/
theorem cleanup_fold_tables (now : Int) :
    ∀ (rows : List Memory) (s : EngineState),
      ((rows.foldl (fun acc row => softDeleteRun row.id now acc) s).memTags = s.memTags)
      ∧ ((rows.foldl (fun acc row => softDeleteRun row.id now acc) s).links = s.links)
      ∧ ((rows.foldl (fun acc row => softDeleteRun row.id now acc) s).embeddingCache
          = s.embeddingCache) := by
  intro rows
  induction rows with
  | nil => intro s; exact ⟨rfl, rfl, rfl⟩
  | cons r rest ih =>
    intro s
    rw [List.foldl_cons]
    exact ih (softDeleteRun r.id now s)

/-- With distinct row ids, a row's id occurs among the filtered rows exactly
when the row itself satisfies the filter. -/
theorem filter_any_id (P : Memory → Bool) (l : List Memory)
    (hnodup : (l.map (·.id)).Nodup) (m : Memory) (hm : m ∈ l) :
    (l.filter P).any (fun r => m.id == r.id) = P m := by
  by_cases hp : P m = true
  · rw [hp]
    rw [List.any_eq_true]
    exact ⟨m, List.mem_filter.mpr ⟨hm, hp⟩, by simp⟩
  · rw [Bool.eq_false_iff.mpr hp]
    rw [Bool.eq_false_iff]
    intro hany
    rcases List.any_eq_true.mp hany with ⟨r, hr, hbeq⟩
    rcases List.mem_filter.mp hr with ⟨hrl, hrP⟩
    have hid : m.id = r.id := by simpa using hbeq
    have : m = r := List.inj_on_of_nodup_map hnodup hm hrl hid
    subst this
    exact hp hrP

/-- The candidate set of claim C7, stated in the words of the specification:
non-deleted dynamic records older than `now` minus `maxAgeDays` days, of
importance neither critical nor high, accessed fewer than 3 times. -/
def cleanupCandidateSpec (maxAgeDays : Nat) (now : Int) (m : Memory) : Prop :=
  m.memory_type = .dynamic ∧ m.is_deleted = false
    ∧ m.updated_at < now - (maxAgeDays : Int) * (24 * 60 * 60 * 1000)
    ∧ m.importance ≠ .critical ∧ m.importance ≠ .high ∧ m.access_count < 3

/-- The full statement of claim C7 about `cleanup maxAgeDays dryRun now s`:
the selected rows are exactly the spec's candidate set; the dry run returns
that set (projected) and its count and leaves the state untouched; the real
run reports the count and soft-deletes exactly that set, touching nothing
else. -/
def C7Statement (maxAgeDays : Nat) (now : Int) (s : EngineState) : Prop :=
  (∀ m : Memory, stalePred (now - (maxAgeDays : Int) * (24 * 60 * 60 * 1000)) m = true
      ↔ cleanupCandidateSpec maxAgeDays now m)
  ∧ cleanup maxAgeDays true now s
      = (.dry (s.memories.filter (stalePred (now - (maxAgeDays : Int) * (24 * 60 * 60 * 1000)))).length
          ((s.memories.filter (stalePred (now - (maxAgeDays : Int) * (24 * 60 * 60 * 1000)))).map
            (fun m => StaleRow.mk m.id m.content m.memory_type m.updated_at)), s)
  ∧ (cleanup maxAgeDays false now s).1
      = .done (s.memories.filter (stalePred (now - (maxAgeDays : Int) * (24 * 60 * 60 * 1000)))).length
  ∧ (cleanup maxAgeDays false now s).2.memories
      = s.memories.map (fun m =>
          if stalePred (now - (maxAgeDays : Int) * (24 * 60 * 60 * 1000)) m
          then { m with is_deleted := true, updated_at := now } else m)
  ∧ (cleanup maxAgeDays false now s).2.memTags = s.memTags
  ∧ (cleanup maxAgeDays false now s).2.links = s.links
  ∧ (cleanup maxAgeDays false now s).2.embeddingCache = s.embeddingCache

/-- C7: for every `cleanup(maxAgeDays, dryRun)` call, the candidate set is
exactly the non-deleted dynamic records older than now minus `maxAgeDays`
days with importance neither critical nor high and `access_count < 3`; a dry
run returns this set and its count without changing stored state, and a real
run soft-deletes exactly this set in one atomic batch. -/
theorem C7_cleanup_selects_and_soft_deletes_exactly_stale
    (maxAgeDays : Nat) (now : Int) (s : EngineState)
    (hnodup : (s.memories.map (·.id)).Nodup) :
    C7Statement maxAgeDays now s := by
  refine ⟨?_, rfl, rfl, ?_, ?_, ?_, ?_⟩
  · intro m
    simp only [stalePred, cleanupCandidateSpec, Bool.and_eq_true, beq_iff_eq,
      decide_eq_true_eq, Bool.not_eq_true', beq_eq_false_iff_ne]
    tauto
  · show (((s.memories.filter _).foldl (fun acc row => softDeleteRun row.id now acc) s)).memories = _
    rw [cleanup_fold_memories]
    refine List.map_congr_left ?_
    intro m hm
    rw [filter_any_id _ _ hnodup m hm]
  · exact (cleanup_fold_tables now _ s).1
  · exact (cleanup_fold_tables now _ s).2.1
  · exact (cleanup_fold_tables now _ s).2.2

/-- The dry-run scenario of the specification: one stale dynamic record and
one static critical record. -/
def c7State : EngineState :=
  { memories :=
      [ { id := "d", content := "old dynamic context", summary := none,
          memory_type := .dynamic, importance := .normal, source := "user",
          metadata := [], embedding := none, access_count := 0,
          last_accessed_at := none, is_deleted := false,
          created_at := -100, updated_at := -100 },
        { id := "s", content := "name is Alex", summary := none,
          memory_type := .static, importance := .critical, source := "user",
          metadata := [], embedding := none, access_count := 0,
          last_accessed_at := none, is_deleted := false,
          created_at := -100, updated_at := -100 } ],
    memTags := [("d", "t"), ("s", "t")], links := [], embeddingCache := [] }

theorem C7_cleanup_witness :
    ((c7State.memories.map (·.id)).Nodup) ∧ C7Statement 0 0 c7State :=
  ⟨by decide, C7_cleanup_selects_and_soft_deletes_exactly_stale 0 0 c7State (by decide)⟩

/-! ## C8: embedding cache bound and insertion-order eviction -/

/-- The full statement of claim C8 about one `_getEmbedding` call: the cache
bound is preserved; a miss on a full cache evicts exactly the head of the
insertion-ordered cache (the oldest-inserted entry) and appends the new entry
at the tail; a hit returns the cached vector and leaves the cache — hence the
insertion order deciding future evictions — completely unchanged (so the
cache is not least-recently-used). -/
def C8Statement (ef : String → List ℚ) (hashFn : String → String) (maxSize : Nat)
    (cache : List (String × List ℚ)) (text : String) : Prop :=
  ((getEmbedding ef hashFn maxSize cache text).2.length ≤ maxSize)
  ∧ (cacheLookup cache (hashFn text) = none → cache.length = maxSize →
      (getEmbedding ef hashFn maxSize cache text).2
        = cache.drop 1 ++ [(hashFn text, ef text)])
  ∧ (∀ v, cacheLookup cache (hashFn text) = some v →
      getEmbedding ef hashFn maxSize cache text = (v, cache))

/-- C8: the embedding cache never exceeds `embeddingCacheMaxSize` entries;
when an entry is added to a full cache, the evicted entry is the
oldest-inserted one, and a cache hit does not change the insertion order
(insertion-order eviction, not least-recently-used). -/
theorem C8_cache_bound_and_insertion_order_eviction
    (ef : String → List ℚ) (hashFn : String → String) (maxSize : Nat)
    (cache : List (String × List ℚ)) (text : String)
    (hmax : 1 ≤ maxSize) (hbound : cache.length ≤ maxSize) :
    C8Statement ef hashFn maxSize cache text := by
  refine ⟨?_, ?_, ?_⟩
  · cases hlk : cacheLookup cache (hashFn text) with
    | some v => simpa [getEmbedding, hlk] using hbound
    | none =>
      by_cases hfull : maxSize ≤ cache.length
      · have hlen : cache.length = maxSize := le_antisymm hbound hfull
        simp [getEmbedding, hlk, hfull, List.length_drop, hlen]
        omega
      · simp [getEmbedding, hlk, hfull]
        omega
  · intro hlk hlen
    have hfull : maxSize ≤ cache.length := le_of_eq hlen.symm
    simp [getEmbedding, hlk, hfull]
  · intro v hlk
    simp [getEmbedding, hlk]

theorem C8_cache_witness :
    (1 ≤ 2 ∧ ([("a", [(2 : ℚ)]), ("b", [3])] : List (String × List ℚ)).length ≤ 2)
    ∧ C8Statement (fun _ => [(1 : ℚ)]) (fun h => h) 2 [("a", [(2 : ℚ)]), ("b", [3])] "c" :=
  ⟨⟨by decide, by decide⟩,
    C8_cache_bound_and_insertion_order_eviction (fun _ => [(1 : ℚ)]) (fun h => h) 2
      [("a", [(2 : ℚ)]), ("b", [3])] "c" (by decide) (by decide)⟩

/-! ## String utilities used by search and chunking -/

/-- The whitespace class of the JS regex `\s` (ASCII part). -/
def jsIsSpace (c : Char) : Bool :=
  c == ' ' || c == '\t' || c == '\n' || c == '\r' || c == '\x0b' || c == '\x0c'

theorem length_dropWhile_le (p : α → Bool) (l : List α) :
    (l.dropWhile p).length ≤ l.length := by
  induction l with
  | nil => simp
  | cons a l ih =>
    by_cases h : p a <;> simp [List.dropWhile_cons, h] <;> omega

mutual

/-- `String.prototype.split` on a one-character-class regex with `+`:
split at each maximal run of separator characters, keeping the (possibly
empty) segments before the first run, between runs, and after the last run.
`splitRunsAux` accumulates the current segment; `splitRunsSkip` consumes a
separator run. -/
def splitRunsAux (p : Char → Bool) : List Char → List Char → List (List Char)
  | [], acc => [acc.reverse]
  | c :: rest, acc =>
    if p c then acc.reverse :: splitRunsSkip p rest
    else splitRunsAux p rest (c :: acc)

def splitRunsSkip (p : Char → Bool) : List Char → List (List Char)
  | [] => [[]]
  | c :: rest => if p c then splitRunsSkip p rest else splitRunsAux p rest [c]

end

/-- `query.split(/\s+/)` as a list of strings. -/
def splitWs (s : String) : List String :=
  (splitRunsAux jsIsSpace s.toList []).map (fun l => String.mk l)

/-- `String.prototype.toLowerCase` (ASCII model), implemented directly over
the character list. -/
def jsToLower (s : String) : String :=
  String.mk (s.toList.map Char.toLower)

/-- `String.prototype.trim` (ASCII whitespace model), implemented directly
over the character list. -/
def jsTrim (s : String) : String :=
  String.mk (((s.toList.dropWhile jsIsSpace).reverse.dropWhile jsIsSpace).reverse)

/-! ## Search row shapes -/

/-- A row produced by the lexical side (`_ftsSearch` / `_keywordSearch` /
`_getRecent`), carrying `_ftsScore`. -/
structure FtsRow where
  mem : Memory
  ftsScore : ℚ

/-- A row produced by `_vectorSearch`, carrying `_vectorScore`. -/
structure VecRow where
  mem : Memory
  vecScore : ℝ

/-- A merged candidate (`byId` entry) carrying both scores. -/
structure MergedRow where
  mem : Memory
  ftsScore : ℚ
  vecScore : ℝ

/-- A fully scored candidate as produced by `_mergeAndRank`. -/
structure RankedRow where
  mem : Memory
  ftsScore : ℚ
  vecScore : ℝ
  tags : List String
  finalScore : ℝ

/-- Tag scoping shared by the search queries: when the tag list is non-empty,
the row must carry one of the tags (`JOIN memory_tags ... AND mt.tag IN (...)`,
or the equivalent `m.id IN (SELECT memory_id ...)` sub-select). -/
def tagOk (tags : List String) (mts : List (String × String)) (m : Memory) : Bool :=
  tags.isEmpty || tags.any (fun t => mts.contains (m.id, t))

/-- Type filter: `m.memory_type IN (...)` when a type list is given. -/
def typeOk (memoryTypes : List MemoryType) (m : Memory) : Bool :=
  memoryTypes.isEmpty || memoryTypes.contains m.memory_type

/-- `_getRecent`: scope-filtered rows, most recently updated first, with the
fixed neutral score `0.3`. -/
def getRecent (tags : List String) (limit : Nat) (includeDeleted : Bool)
    (memoryTypes : List MemoryType) (s : EngineState) : List FtsRow :=
  ((sortKeep (fun a b : Memory => b.updated_at ≤ a.updated_at)
      (s.memories.filter (fun m => m.is_deleted == includeDeleted
        && tagOk tags s.memTags m && typeOk memoryTypes m))).take limit).map
    (fun m => FtsRow.mk m (3 / 10))

/-- `_keywordSearch`: lowercase the query, keep whitespace-split words of
length `> 2`; with no usable words fall back to `_getRecent`; otherwise
select rows whose lowercased content contains one of the words
(`LOWER(m.content) LIKE ?`, most recently updated first, `LIMIT`), scoring
each row `matchCount / words.length`. -/
def keywordSearch (query : String) (tags : List String) (limit : Nat)
    (includeDeleted : Bool) (memoryTypes : List MemoryType) (s : EngineState) : List FtsRow :=
  let words := (splitWs (jsToLower query)).filter (fun w => 2 < w.length)
  if words.isEmpty then getRecent tags limit includeDeleted memoryTypes s
  else
    ((sortKeep (fun a b : Memory => b.updated_at ≤ a.updated_at)
        (s.memories.filter (fun m => m.is_deleted == includeDeleted
          && words.any (fun w => decide (List.IsInfix w.toList (jsToLower m.content).toList))
          && tagOk tags s.memTags m && typeOk memoryTypes m))).take limit).map
      (fun m => FtsRow.mk m
        (((words.filter (fun w => decide (List.IsInfix w.toList (jsToLower m.content).toList))).length : ℚ)
          / (words.length : ℚ)))

/-- The characters stripped from an FTS query by `_ftsSearch`
(the regex `['"*(){}[\]:^~!@#$%&\\]`). -/
def FTS_STRIP_CHARS : List Char :=
  ['\'', '"', '*', '(', ')', '\x7b', '\x7d', '[', ']', ':', '^', '~', '!', '@', '#', '$', '%', '&', '\\']

/-- The sanitized FTS token list: strip special characters, split on
whitespace, keep words of length `> 1` (each word is then quoted and
prefix-starred and the tokens are joined with `OR`; only emptiness of the
token list affects control flow). -/
def ftsTokens (query : String) : List String :=
  (splitWs (String.mk (query.toList.filter (fun c => !(FTS_STRIP_CHARS.contains c))))).filter
    (fun w => 1 < w.length)

/-- `_ftsSearch`: on an FTS5-enabled build with a non-blank query and a
non-empty sanitized token list, select rows matched by the external FTS5
`MATCH` (abstracted as `ftsMatch`) under the same deletion/tag/type filters,
ordered by the external BM25 `rank` (abstracted as `ftsRank`, ascending),
scoring each row `|rank|`; otherwise fall back to `_keywordSearch` (this
also covers the try/catch fallback on an FTS query error). -/
def ftsSearch (hasFTS : Bool) (ftsMatch : Memory → Bool) (ftsRank : Memory → ℚ)
    (query : String) (tags : List String) (limit : Nat) (includeDeleted : Bool)
    (memoryTypes : List MemoryType) (s : EngineState) : List FtsRow :=
  if hasFTS && !(jsTrim query == "") then
    if (ftsTokens query).isEmpty then keywordSearch query tags limit includeDeleted memoryTypes s
    else
      ((sortKeep (fun a b : Memory => ftsRank a ≤ ftsRank b)
          (s.memories.filter (fun m => ftsMatch m && m.is_deleted == includeDeleted
            && tagOk tags s.memTags m && typeOk memoryTypes m))).take limit).map
        (fun m => FtsRow.mk m |ftsRank m|)
  else keywordSearch query tags limit includeDeleted memoryTypes s

/-- `_cosineSimilarity`: `dot(a,b) / (sqrt(normA) * sqrt(normB))`, `0` on
length mismatch or a zero denominator. -/
noncomputable def cosineSimilarity (a b : List ℚ) : ℝ :=
  if a.length ≠ b.length then 0
  else
    let dot : ℚ := (a.zip b).foldl (fun acc p => acc + p.1 * p.2) 0
    let normA : ℚ := a.foldl (fun acc x => acc + x * x) 0
    let normB : ℚ := b.foldl (fun acc x => acc + x * x) 0
    let denom : ℝ := Real.sqrt (normA : ℝ) * Real.sqrt (normB : ℝ)
    if denom = 0 then 0 else (dot : ℝ) / denom

/-- `_vectorSearch` (given the query embedding): rows with a stored embedding
under the same deletion/tag/type filters, scored by cosine similarity,
sorted descending by similarity, truncated to `limit`. -/
noncomputable def vectorSearch (queryEmbedding : List ℚ) (tags : List String) (limit : Nat)
    (includeDeleted : Bool) (memoryTypes : List MemoryType) (s : EngineState) : List VecRow :=
  (sortKeep (fun a b : VecRow => b.vecScore ≤ a.vecScore)
    ((s.memories.filter (fun m => m.is_deleted == includeDeleted
        && m.embedding.isSome && tagOk tags s.memTags m && typeOk memoryTypes m)).map
      (fun m => VecRow.mk m (cosineSimilarity queryEmbedding (m.embedding.getD []))))).take limit

/-! ## `_mergeAndRank` and the public `search` -/

/-- The `byId` merge of `_mergeAndRank`: fold the lexical results into an
insertion-ordered map (`Map.set` replaces the value of an existing key in
place), then fold the vector results in, updating only `_vectorScore` for
ids already present and appending new ids with `_ftsScore = 0`. -/
def mergeCandidates (fts : List FtsRow) (vec : List VecRow) : List MergedRow :=
  let m1 : List (String × MergedRow) := fts.foldl (fun acc r =>
    if acc.any (fun p => p.1 == r.mem.id)
    then acc.map (fun p => if p.1 == r.mem.id then (p.1, MergedRow.mk r.mem r.ftsScore 0) else p)
    else acc ++ [(r.mem.id, MergedRow.mk r.mem r.ftsScore 0)]) []
  let m2 : List (String × MergedRow) := vec.foldl (fun acc r =>
    if acc.any (fun p => p.1 == r.mem.id)
    then acc.map (fun p => if p.1 == r.mem.id then (p.1, { p.2 with vecScore := r.vecScore }) else p)
    else acc ++ [(r.mem.id, MergedRow.mk r.mem 0 r.vecScore)]) m1
  m2.map (·.2)

/-- `_mergeAndRank`: merge the candidate lists by id, drop candidates below
the minimum importance, score each remaining candidate (time decay from
`updated_at` with a 30-day half-life unless static, importance weight over 4,
log2 access boost, lexical score normalized by `min(score/5, 1)`, vector
score used directly), and sort descending by the composite `finalScore`
(`results.sort((a, b) => b.finalScore - a.finalScore)`, a stable sort with
no secondary key).  `scoreRow` is the loop body of `_mergeAndRank` that
builds one scored candidate (tag fetch plus composite score). -/
noncomputable def scoreRow (now : Int) (mts : List (String × String)) (r : MergedRow) :
    RankedRow :=
  let ageMs : ℝ := (now : ℝ) - (r.mem.updated_at : ℝ)
  let ageDays : ℝ := ageMs / (1000 * 60 * 60 * 24)
  let decayRate : ℝ := if r.mem.memory_type = .static then 0
    else (0.5 : ℝ) ^ (ageDays / DECAY_HALF_LIFE_DAYS)
  let recencyScore : ℝ := if r.mem.memory_type = .static then 1.0 else decayRate
  let impWeight : ℝ := (IMPORTANCE_WEIGHTS r.mem.importance : ℝ) / 4
  let accessBoost : ℝ := Real.logb 2 ((r.mem.access_count : ℝ) + 1) * 0.05
  let ftsNorm : ℝ := min ((r.ftsScore : ℝ) / 5) 1
  let vecNorm : ℝ := r.vecScore
  RankedRow.mk r.mem r.ftsScore r.vecScore
    ((mts.filter (fun p => p.1 == r.mem.id)).map (·.2))
    (vecNorm * 0.40 + ftsNorm * 0.25 + recencyScore * 0.15
      + impWeight * 0.12 + accessBoost * 0.08)

noncomputable def mergeAndRank (now : Int) (mts : List (String × String))
    (ftsResults : List FtsRow) (vectorResults : List VecRow)
    (minImportance : Option Importance) : List RankedRow :=
  let merged := mergeCandidates ftsResults vectorResults
  let kept := merged.filter (fun r =>
    match minImportance with
    | some mi => !decide (IMPORTANCE_WEIGHTS r.mem.importance < IMPORTANCE_WEIGHTS mi)
    | none => true)
  sortKeep (fun a b : RankedRow => b.finalScore ≤ a.finalScore) (kept.map (scoreRow now mts))

/-- The `bumpAccess` prepared statement:
`UPDATE memories SET access_count = access_count + 1,
 last_accessed_at = CURRENT_TIMESTAMP WHERE id = ?`. -/
def bumpAccessRun (id : String) (now : Int) (s : EngineState) : EngineState :=
  { s with memories := s.memories.map (fun m =>
      if m.id == id then { m with access_count := m.access_count + 1, last_accessed_at := some now }
      else m) }

/-- The ranked candidate list of one `search` call (before the final `limit`
truncation), together with the state as updated by the query-embedding cache
access.  The lexical and vector searches each use the expanded candidate
limit `limit * 2`; the vector side runs only when an embedding function is
configured. -/
noncomputable def searchRanked (cfg : EngineConfig) (ftsMatch : Memory → Bool)
    (ftsRank : Memory → ℚ) (q : String) (containerTags : List String) (limit : Nat)
    (memoryTypes : List MemoryType) (minImportance : Option Importance)
    (includeDeleted : Bool) (now : Int) (s : EngineState) : List RankedRow × EngineState :=
  let ftsResults := ftsSearch cfg.hasFTS ftsMatch ftsRank q containerTags (limit * 2)
    includeDeleted memoryTypes s
  match cfg.embedFn with
  | some ef =>
    let qe := getEmbedding ef cfg.hashFn cfg.embeddingCacheMaxSize s.embeddingCache q
    (mergeAndRank now s.memTags ftsResults
        (vectorSearch qe.1 containerTags (limit * 2) includeDeleted memoryTypes s)
        minImportance,
      { s with embeddingCache := qe.2 })
  | none => (mergeAndRank now s.memTags ftsResults [] minImportance, s)

/-- One entry of the `results` array returned by `search`. -/
structure SearchResult where
  id : String
  content : String
  summary : Option String
  score : ℝ
  memoryType : MemoryType
  importance : Importance
  tags : List String
  metadata : List (String × String)
  createdAt : Int
  accessCount : Nat

/-- The public `search`: rank, truncate to `limit`, bump the access counters
of the returned rows in one transaction, and project the result objects
(content truncated to 200 characters unless `includeFullDocs`, score rounded
to three decimals). -/
noncomputable def search (cfg : EngineConfig) (ftsMatch : Memory → Bool)
    (ftsRank : Memory → ℚ) (q : String) (containerTags : List String) (limit : Nat)
    (includeFullDocs : Bool) (memoryTypes : List MemoryType)
    (minImportance : Option Importance) (includeDeleted : Bool) (now : Int)
    (s : EngineState) : List SearchResult × EngineState :=
  let rs := searchRanked cfg ftsMatch ftsRank q containerTags limit memoryTypes
    minImportance includeDeleted now s
  let topResults := rs.1.take limit
  (topResults.map (fun r =>
      let roundedScore : ℝ := ((round (r.finalScore * 1000) : ℤ) : ℝ) / (1000 : ℝ)
      { id := r.mem.id,
        content := if includeFullDocs then r.mem.content else r.mem.content.take 200,
        summary := r.mem.summary,
        score := roundedScore,
        memoryType := r.mem.memory_type,
        importance := r.mem.importance,
        tags := r.tags,
        metadata := r.mem.metadata,
        createdAt := r.mem.created_at,
        accessCount := r.mem.access_count }),
    topResults.foldl (fun acc r => bumpAccessRun r.mem.id now acc) rs.2)

/-! ## Provenance of search rows -/

/-- Rows returned by `_getRecent` are stored rows matching the deletion
filter. -/
theorem getRecent_sourced (tags : List String) (limit : Nat) (incDel : Bool)
    (mtypes : List MemoryType) (s : EngineState) (r : FtsRow)
    (hr : r ∈ getRecent tags limit incDel mtypes s) :
    r.mem ∈ s.memories ∧ r.mem.is_deleted = incDel := by
  simp only [getRecent] at hr
  rcases List.mem_map.mp hr with ⟨m, hm, rfl⟩
  have hm2 := List.mem_of_mem_take hm
  rw [mem_sortKeep] at hm2
  rcases List.mem_filter.mp hm2 with ⟨hmem, hcond⟩
  simp only [Bool.and_eq_true, beq_iff_eq] at hcond
  exact ⟨hmem, hcond.1.1⟩

/-- Rows returned by `_keywordSearch` are stored rows matching the deletion
filter. -/
theorem keywordSearch_sourced (q : String) (tags : List String) (limit : Nat)
    (incDel : Bool) (mtypes : List MemoryType) (s : EngineState) (r : FtsRow)
    (hr : r ∈ keywordSearch q tags limit incDel mtypes s) :
    r.mem ∈ s.memories ∧ r.mem.is_deleted = incDel := by
  simp only [keywordSearch] at hr
  split at hr
  · exact getRecent_sourced tags limit incDel mtypes s r hr
  · rcases List.mem_map.mp hr with ⟨m, hm, rfl⟩
    have hm2 := List.mem_of_mem_take hm
    rw [mem_sortKeep] at hm2
    rcases List.mem_filter.mp hm2 with ⟨hmem, hcond⟩
    simp only [Bool.and_eq_true, beq_iff_eq] at hcond
    exact ⟨hmem, hcond.1.1.1⟩

/-- Rows returned by `_ftsSearch` are stored rows matching the deletion
filter, for every external FTS5 match predicate and rank. -/
theorem ftsSearch_sourced (hasFTS : Bool) (ftsMatch : Memory → Bool) (ftsRank : Memory → ℚ)
    (q : String) (tags : List String) (limit : Nat) (incDel : Bool)
    (mtypes : List MemoryType) (s : EngineState) (r : FtsRow)
    (hr : r ∈ ftsSearch hasFTS ftsMatch ftsRank q tags limit incDel mtypes s) :
    r.mem ∈ s.memories ∧ r.mem.is_deleted = incDel := by
  simp only [ftsSearch] at hr
  split at hr
  · split at hr
    · exact keywordSearch_sourced q tags limit incDel mtypes s r hr
    · rcases List.mem_map.mp hr with ⟨m, hm, rfl⟩
      have hm2 := List.mem_of_mem_take hm
      rw [mem_sortKeep] at hm2
      rcases List.mem_filter.mp hm2 with ⟨hmem, hcond⟩
      simp only [Bool.and_eq_true, beq_iff_eq] at hcond
      exact ⟨hmem, hcond.1.1.2⟩
  · exact keywordSearch_sourced q tags limit incDel mtypes s r hr

/-- Rows returned by `_vectorSearch` are stored rows matching the deletion
filter, and their score is the cosine similarity against the query
embedding. -/
theorem vectorSearch_sourced (qe : List ℚ) (tags : List String) (limit : Nat)
    (incDel : Bool) (mtypes : List MemoryType) (s : EngineState) (v : VecRow)
    (hv : v ∈ vectorSearch qe tags limit incDel mtypes s) :
    v.mem ∈ s.memories ∧ v.mem.is_deleted = incDel
      ∧ v.vecScore = cosineSimilarity qe (v.mem.embedding.getD []) := by
  simp only [vectorSearch] at hv
  have hv2 := List.mem_of_mem_take hv
  rw [mem_sortKeep] at hv2
  rcases List.mem_map.mp hv2 with ⟨m, hm, rfl⟩
  rcases List.mem_filter.mp hm with ⟨hmem, hcond⟩
  simp only [Bool.and_eq_true, beq_iff_eq] at hcond
  exact ⟨hmem, hcond.1.1.1, rfl⟩

/-! ## Invariants of the `byId` merge -/

/-- Invariant of the first `byId` fold (over the lexical results): every
entry is keyed by its row id, comes from the lexical list, and has vector
score `0`. -/
theorem mergeFold1_inv (fts0 : List FtsRow) :
    ∀ (l : List FtsRow) (acc : List (String × MergedRow)),
      (∀ f ∈ l, f ∈ fts0) →
      (∀ p ∈ acc, (∃ f ∈ fts0, p.2.mem = f.mem) ∧ p.2.vecScore = 0 ∧ p.1 = p.2.mem.id) →
      ∀ p ∈ l.foldl (fun acc r =>
          if acc.any (fun p => p.1 == r.mem.id)
          then acc.map (fun p => if p.1 == r.mem.id then (p.1, MergedRow.mk r.mem r.ftsScore 0) else p)
          else acc ++ [(r.mem.id, MergedRow.mk r.mem r.ftsScore 0)]) acc,
        (∃ f ∈ fts0, p.2.mem = f.mem) ∧ p.2.vecScore = 0 ∧ p.1 = p.2.mem.id := by
  intro l
  induction l with
  | nil => intro acc _ hacc p hp; exact hacc p hp
  | cons r rest ih =>
    intro acc hl hacc p hp
    rw [List.foldl_cons] at hp
    refine ih _ (fun f hf => hl f (List.mem_cons_of_mem r hf)) ?_ p hp
    intro p' hp'
    split at hp'
    · rcases List.mem_map.mp hp' with ⟨p0, hp0, rfl⟩
      by_cases hk : (p0.1 == r.mem.id) = true
      · rw [if_pos hk]
        exact ⟨⟨r, hl r (List.mem_cons_self r rest), rfl⟩, rfl, beq_iff_eq.mp hk⟩
      · rw [if_neg hk]
        exact hacc p0 hp0
    · rcases List.mem_append.mp hp' with hin | hnew
      · exact hacc p' hin
      · rcases List.mem_singleton.mp hnew with rfl
        exact ⟨⟨r, hl r (List.mem_cons_self r rest), rfl⟩, rfl, rfl⟩

/-- Invariant of the second `byId` fold (over the vector results): every
entry is keyed by its row id, comes from one of the two candidate lists, and
either kept vector score `0` or took its vector score from a vector row with
the same id. -/
theorem mergeFold2_inv (fts0 : List FtsRow) (vec0 : List VecRow) :
    ∀ (l : List VecRow) (acc : List (String × MergedRow)),
      (∀ v ∈ l, v ∈ vec0) →
      (∀ p ∈ acc, ((∃ f ∈ fts0, p.2.mem = f.mem) ∨ (∃ v ∈ vec0, p.2.mem = v.mem))
        ∧ (p.2.vecScore = 0 ∨ ∃ v ∈ vec0, v.mem.id = p.2.mem.id ∧ p.2.vecScore = v.vecScore)
        ∧ p.1 = p.2.mem.id) →
      ∀ p ∈ l.foldl (fun acc r =>
          if acc.any (fun p => p.1 == r.mem.id)
          then acc.map (fun p => if p.1 == r.mem.id then (p.1, { p.2 with vecScore := r.vecScore }) else p)
          else acc ++ [(r.mem.id, MergedRow.mk r.mem 0 r.vecScore)]) acc,
        ((∃ f ∈ fts0, p.2.mem = f.mem) ∨ (∃ v ∈ vec0, p.2.mem = v.mem))
        ∧ (p.2.vecScore = 0 ∨ ∃ v ∈ vec0, v.mem.id = p.2.mem.id ∧ p.2.vecScore = v.vecScore)
        ∧ p.1 = p.2.mem.id := by
  intro l
  induction l with
  | nil => intro acc _ hacc p hp; exact hacc p hp
  | cons r rest ih =>
    intro acc hl hacc p hp
    rw [List.foldl_cons] at hp
    refine ih _ (fun v hv => hl v (List.mem_cons_of_mem r hv)) ?_ p hp
    intro p' hp'
    split at hp'
    · rcases List.mem_map.mp hp' with ⟨p0, hp0, rfl⟩
      rcases hacc p0 hp0 with ⟨hprov, _, hkey⟩
      by_cases hk : (p0.1 == r.mem.id) = true
      · rw [if_pos hk]
        have hkeq : p0.1 = r.mem.id := beq_iff_eq.mp hk
        refine ⟨hprov, Or.inr ⟨r, hl r (List.mem_cons_self r rest), ?_, rfl⟩, hkey⟩
        rw [← hkeq, hkey]
      · rw [if_neg hk]
        exact hacc p0 hp0
    · rcases List.mem_append.mp hp' with hin | hnew
      · exact hacc p' hin
      · rcases List.mem_singleton.mp hnew with rfl
        exact ⟨Or.inr ⟨r, hl r (List.mem_cons_self r rest), rfl⟩,
          Or.inr ⟨r, hl r (List.mem_cons_self r rest), rfl, rfl⟩, rfl⟩

/-- Every merged candidate comes from one of the two sides, and its vector
score is `0` unless a vector row with the same id supplied it. -/
theorem mergeCandidates_entries (fts : List FtsRow) (vec : List VecRow) :
    ∀ r ∈ mergeCandidates fts vec,
      ((∃ f ∈ fts, r.mem = f.mem) ∨ (∃ v ∈ vec, r.mem = v.mem))
      ∧ (r.vecScore = 0 ∨ ∃ v ∈ vec, v.mem.id = r.mem.id ∧ r.vecScore = v.vecScore) := by
  intro r hr
  simp only [mergeCandidates] at hr
  rcases List.mem_map.mp hr with ⟨p, hp, rfl⟩
  have h1 := mergeFold1_inv fts fts [] (fun f hf => hf)
    (fun p hp => absurd hp (List.not_mem_nil p))
  have h2 := mergeFold2_inv fts vec vec _ (fun v hv => hv)
    (fun p hp => ⟨Or.inl (h1 p hp).1, Or.inl (h1 p hp).2.1, (h1 p hp).2.2⟩) p hp
  exact ⟨h2.1, h2.2.1⟩

/-- Every ranked row of `_mergeAndRank` carries the record of one of the two
candidate sides. -/
theorem mergeAndRank_sourced (now : Int) (mts : List (String × String))
    (fts : List FtsRow) (vec : List VecRow) (minImp : Option Importance) :
    ∀ r ∈ mergeAndRank now mts fts vec minImp,
      (∃ f ∈ fts, r.mem = f.mem) ∨ (∃ v ∈ vec, r.mem = v.mem) := by
  intro r hr
  simp only [mergeAndRank] at hr
  rw [mem_sortKeep] at hr
  rcases List.mem_map.mp hr with ⟨k, hk, rfl⟩
  exact (mergeCandidates_entries fts vec k (List.mem_of_mem_filter hk)).1

/-! ## C1: the composite final score formula -/

/-- The lexical normalization `Math.min(score / 5, 1)` equals capping the raw
score at the ceiling 5 and dividing by it. -/
theorem min_div_five (a : ℝ) : min (a / 5) 1 = min a 5 / 5 := by
  have h5 : (1 : ℝ) = 5 / 5 := by norm_num
  rw [h5, min_div_div_right (by norm_num : (0 : ℝ) ≤ 5)]

/-- The final score of claim C1, in the words of the specification:
`0.40*vectorScore + 0.25*lexicalScore + 0.15*recencyScore
 + 0.12*importanceWeight + 0.08*accessBoost`, with `lexicalScore` the raw
lexical score capped at the ceiling 5 and divided by it, `vectorScore` the
merged (unclamped) vector score, `recencyScore` 1 for static records and
`0.5 ^ (ageDays / 30)` of `updated_at` otherwise, `importanceWeight` the
importance weight divided by 4, and `accessBoost`
`log2(access_count + 1) * 0.05`. -/
noncomputable def specFinalScore (now : Int) (r : RankedRow) : ℝ :=
  0.40 * r.vecScore
  + 0.25 * (min (r.ftsScore : ℝ) 5 / 5)
  + 0.15 * (if r.mem.memory_type = .static then 1
      else (0.5 : ℝ) ^ ((((now : ℝ) - (r.mem.updated_at : ℝ)) / (1000 * 60 * 60 * 24))
        / DECAY_HALF_LIFE_DAYS))
  + 0.12 * ((IMPORTANCE_WEIGHTS r.mem.importance : ℝ) / 4)
  + 0.08 * (Real.logb 2 ((r.mem.access_count : ℝ) + 1) * 0.05)

/-- C1: every merged candidate of `_mergeAndRank` carries the spec's final
score: `0.40*vectorScore + 0.25*lexicalScore + 0.15*recencyScore +
0.12*importanceWeight + 0.08*accessBoost` with the spec's component
definitions; the vector score of a `_vectorSearch` row is the raw
(unclamped) cosine similarity; and a candidate absent from the vector side
keeps vector score 0. -/
theorem C1_final_score_formula (now : Int) (mts : List (String × String))
    (fts : List FtsRow) (vec : List VecRow) (minImp : Option Importance)
    (qe : List ℚ) (tags : List String) (limit : Nat) (incDel : Bool)
    (mtypes : List MemoryType) (s : EngineState) :
    (∀ r ∈ mergeAndRank now mts fts vec minImp, r.finalScore = specFinalScore now r)
    ∧ (∀ v ∈ vectorSearch qe tags limit incDel mtypes s,
        v.vecScore = cosineSimilarity qe (v.mem.embedding.getD []))
    ∧ (∀ r ∈ mergeAndRank now mts fts vec minImp,
        (∀ v ∈ vec, v.mem.id ≠ r.mem.id) → r.vecScore = 0) := by
  refine ⟨?_, ?_, ?_⟩
  · intro r hr
    simp only [mergeAndRank] at hr
    rw [mem_sortKeep] at hr
    rcases List.mem_map.mp hr with ⟨k, _, rfl⟩
    simp only [specFinalScore, scoreRow]
    by_cases hstatic : k.mem.memory_type = .static
    · simp only [hstatic, eq_self_iff_true, if_true]
      rw [min_div_five]
      ring
    · simp only [if_neg hstatic]
      rw [min_div_five]
      ring
  · intro v hv
    exact (vectorSearch_sourced qe tags limit incDel mtypes s v hv).2.2
  · intro r hr habs
    simp only [mergeAndRank] at hr
    rw [mem_sortKeep] at hr
    rcases List.mem_map.mp hr with ⟨k, hk, rfl⟩
    rcases (mergeCandidates_entries fts vec k (List.mem_of_mem_filter hk)).2 with h0 |
      ⟨v, hvvec, hid, _⟩
    · exact h0
    · exact absurd hid (habs v hvvec)

/-! ## C9: includeDeleted flips the deletion filter -/

/-- C9: with `includeDeleted = true`, every row produced by `_ftsSearch`
(for any external FTS5 match/rank), `_keywordSearch` (including its
`_getRecent` fallback), `_vectorSearch`, and hence every ranked search
candidate, is soft-deleted — the flag flips the deletion filter instead of
widening the result set. -/
theorem C9_includeDeleted_returns_only_deleted
    (cfg : EngineConfig) (ftsMatch : Memory → Bool) (ftsRank : Memory → ℚ)
    (q : String) (tags : List String) (limit : Nat) (mtypes : List MemoryType)
    (minImp : Option Importance) (qe : List ℚ) (now : Int) (s : EngineState) :
    (∀ r ∈ ftsSearch cfg.hasFTS ftsMatch ftsRank q tags limit true mtypes s,
        r.mem.is_deleted = true)
    ∧ (∀ r ∈ keywordSearch q tags limit true mtypes s, r.mem.is_deleted = true)
    ∧ (∀ r ∈ vectorSearch qe tags limit true mtypes s, r.mem.is_deleted = true)
    ∧ (∀ r ∈ (searchRanked cfg ftsMatch ftsRank q tags limit mtypes minImp true now s).1,
        r.mem.is_deleted = true) := by
  refine ⟨?_, ?_, ?_, ?_⟩
  · intro r hr
    exact (ftsSearch_sourced cfg.hasFTS ftsMatch ftsRank q tags limit true mtypes s r hr).2
  · intro r hr
    exact (keywordSearch_sourced q tags limit true mtypes s r hr).2
  · intro r hr
    exact (vectorSearch_sourced qe tags limit true mtypes s r hr).2.1
  · intro r hr
    cases hef : cfg.embedFn with
    | some ef =>
      simp only [searchRanked, hef] at hr
      rcases mergeAndRank_sourced now s.memTags _ _ minImp r hr with ⟨f, hf, hmem⟩ | ⟨v, hv, hmem⟩
      · rw [hmem]
        exact (ftsSearch_sourced cfg.hasFTS ftsMatch ftsRank q tags (limit * 2) true mtypes s f hf).2
      · rw [hmem]
        exact (vectorSearch_sourced _ tags (limit * 2) true mtypes s v hv).2.1
    | none =>
      simp only [searchRanked, hef] at hr
      rcases mergeAndRank_sourced now s.memTags _ _ minImp r hr with ⟨f, hf, hmem⟩ | ⟨v, hv, hmem⟩
      · rw [hmem]
        exact (ftsSearch_sourced cfg.hasFTS ftsMatch ftsRank q tags (limit * 2) true mtypes s f hf).2
      · exact absurd hv (List.not_mem_nil v)

/-! ## C6: result ordering -/

/-- A stable sort of a two-element list keeps the order exactly when the
comparator keeps the first element first. -/
theorem sortKeep_pair (keep : α → α → Prop) [DecidableRel keep] (a b : α) :
    sortKeep keep [a, b] = if keep a b then [a, b] else [b, a] := by
  by_cases h : keep a b <;>
    simp [sortKeep, insertKeep, h]

/-- The ordering asserted by claim C6: descending by final score, with equal
scores ordered by more recent `updated_at` first. -/
def scoreRecencyOrdered (l : List RankedRow) : Prop :=
  l.Pairwise (fun a b => b.finalScore < a.finalScore
    ∨ (a.finalScore = b.finalScore ∧ b.mem.updated_at ≤ a.mem.updated_at))

/-- C6 (amended): the ranked candidate list of every search call — and hence
its `limit`-truncated prefix, the returned result list — is ordered
descending by final score.  (Ties keep the stable merge order: lexical
candidates before vector-only candidates; there is no `updated_at`
tie-break, see `C6_counterexample`.) -/
theorem C6_sorted_by_final_score (cfg : EngineConfig) (ftsMatch : Memory → Bool)
    (ftsRank : Memory → ℚ) (q : String) (tags : List String) (limit : Nat)
    (mtypes : List MemoryType) (minImp : Option Importance) (incDel : Bool)
    (now : Int) (s : EngineState) :
    ((searchRanked cfg ftsMatch ftsRank q tags limit mtypes minImp incDel now s).1.Pairwise
      (fun a b => b.finalScore ≤ a.finalScore))
    ∧ (((searchRanked cfg ftsMatch ftsRank q tags limit mtypes minImp incDel now s).1.take
        limit).Pairwise (fun a b => b.finalScore ≤ a.finalScore)) := by
  have htot : ∀ a b : RankedRow, b.finalScore ≤ a.finalScore ∨ a.finalScore ≤ b.finalScore :=
    fun a b => le_total b.finalScore a.finalScore
  have htrans : ∀ {a b c : RankedRow},
      b.finalScore ≤ a.finalScore → c.finalScore ≤ b.finalScore → c.finalScore ≤ a.finalScore :=
    fun hab hbc => le_trans hbc hab
  have hmain : (searchRanked cfg ftsMatch ftsRank q tags limit mtypes minImp incDel now s).1.Pairwise
      (fun a b => b.finalScore ≤ a.finalScore) := by
    cases hef : cfg.embedFn with
    | some ef =>
      simp only [searchRanked, hef]
      exact pairwise_sortKeep _ htot htrans _
    | none =>
      simp only [searchRanked, hef]
      exact pairwise_sortKeep _ htot htrans _
  exact ⟨hmain, hmain.sublist (List.take_sublist limit _)⟩

/-- First record of the C6 counterexample: matched lexically (content
contains the query word), older, static/normal, never accessed, no stored
embedding. -/
def cex6A : Memory :=
  { id := "A", content := "hello there", summary := none, memory_type := .static,
    importance := .normal, source := "user", metadata := [], embedding := none,
    access_count := 0, last_accessed_at := none, is_deleted := false,
    created_at := 0, updated_at := 0 }

/-- Second record of the C6 counterexample: vector-only candidate (content
does not contain the query word), more recently updated, static/high,
accessed 31 times, stored embedding orthogonal to the query embedding. -/
def cex6B : Memory :=
  { id := "B", content := "breaking news", summary := none, memory_type := .static,
    importance := .high, source := "user", metadata := [], embedding := some [1, 0],
    access_count := 31, last_accessed_at := none, is_deleted := false,
    created_at := 99, updated_at := 99 }

def cex6State : EngineState :=
  { memories := [cex6A, cex6B], memTags := [("A", "t"), ("B", "t")],
    links := [], embeddingCache := [] }

def cex6Cfg : EngineConfig :=
  { embedFn := some (fun _ => [0, 1]), hashFn := fun h => h,
    embeddingCacheMaxSize := 5000, hasFTS := false }

theorem cex6_cos : cosineSimilarity [0, 1] [1, 0] = 0 := by
  simp only [cosineSimilarity, List.zip, List.zipWith, List.foldl]
  norm_num

theorem logb_two_32 : Real.logb 2 32 = 5 := by
  have h32 : (32 : ℝ) = 2 ^ (5 : ℕ) := by norm_num
  have h2 : Real.log 2 ≠ 0 := ne_of_gt (Real.log_pos (by norm_num))
  rw [Real.logb, h32, Real.log_pow]
  field_simp

theorem cex6_scoreA :
    (scoreRow 0 [("A", "t"), ("B", "t")]
      (MergedRow.mk cex6A (((1 : ℕ) : ℚ) / ((1 : ℕ) : ℚ)) 0)).finalScore = 13 / 50 := by
  simp only [scoreRow, cex6A, IMPORTANCE_WEIGHTS]
  push_cast
  rw [min_eq_left (by norm_num : (1 : ℝ) / 1 / 5 ≤ 1)]
  norm_num [Real.logb_one]

theorem cex6_scoreB :
    (scoreRow 0 [("A", "t"), ("B", "t")]
      (MergedRow.mk cex6B 0 (cosineSimilarity [0, 1] [1, 0]))).finalScore = 13 / 50 := by
  simp only [scoreRow, cex6B, IMPORTANCE_WEIGHTS, cex6_cos]
  push_cast
  rw [min_eq_left (by norm_num : (0 : ℝ) / 5 ≤ 1)]
  norm_num [show ((31 : ℝ) + 1) = 32 by norm_num, logb_two_32]

/-- C6 is false as stated: in this search call the lexical candidate `A`
(updated at time 0) and the vector-only candidate `B` (updated at time 99)
both receive final score `0.26`, yet the result list is `[A, B]` — the tie
is decided by the stable merge order, not by the more recent `updated_at`. -/
theorem C6_counterexample :
    ((searchRanked cex6Cfg (fun _ => false) (fun _ => 0) "hello" ["t"] 10 [] none false 0
        cex6State).1.map (fun r => (r.mem.id, r.mem.updated_at)) = [("A", 0), ("B", 99)])
    ∧ ((searchRanked cex6Cfg (fun _ => false) (fun _ => 0) "hello" ["t"] 10 [] none false 0
        cex6State).1.map (fun r => r.finalScore) = [13 / 50, 13 / 50])
    ∧ ¬ scoreRecencyOrdered (searchRanked cex6Cfg (fun _ => false) (fun _ => 0) "hello" ["t"]
        10 [] none false 0 cex6State).1 := by
  have h1 : (searchRanked cex6Cfg (fun _ => false) (fun _ => 0) "hello" ["t"] 10 [] none false 0
        cex6State).1
      = sortKeep (fun a b : RankedRow => b.finalScore ≤ a.finalScore)
          [scoreRow 0 [("A", "t"), ("B", "t")] (MergedRow.mk cex6A (((1 : ℕ) : ℚ) / ((1 : ℕ) : ℚ)) 0),
           scoreRow 0 [("A", "t"), ("B", "t")] (MergedRow.mk cex6B 0 (cosineSimilarity [0, 1] [1, 0]))] :=
    rfl
  have hpair := sortKeep_pair (fun a b : RankedRow => b.finalScore ≤ a.finalScore)
    (scoreRow 0 [("A", "t"), ("B", "t")] (MergedRow.mk cex6A (((1 : ℕ) : ℚ) / ((1 : ℕ) : ℚ)) 0))
    (scoreRow 0 [("A", "t"), ("B", "t")] (MergedRow.mk cex6B 0 (cosineSimilarity [0, 1] [1, 0])))
  rw [if_pos (by rw [cex6_scoreA, cex6_scoreB])] at hpair
  rw [h1, hpair]
  refine ⟨rfl, by rw [List.map_cons, List.map_cons, List.map_nil, cex6_scoreA, cex6_scoreB], ?_⟩
  intro hord
  rcases List.pairwise_cons.mp hord with ⟨hrel, _⟩
  rcases hrel _ (List.mem_cons_self _ _) with hlt | ⟨_, hle⟩
  · rw [cex6_scoreA, cex6_scoreB] at hlt
    exact absurd hlt (lt_irrefl _)
  · exact absurd hle (by decide)

/-! ## Metadata spread, links, update, profile -/

/-- Association-list lookup (`obj[key]` of the parsed JSON object). -/
def metaLookup (l : List (String × String)) (k : String) : Option String :=
  (l.find? (fun p => p.1 == k)).map (·.2)

/-- The JS object spread `{ ...a, ...b }`: keys of `a` in place (values
overridden by `b` where present), followed by the keys only `b` has. -/
def jsSpread (a b : List (String × String)) : List (String × String) :=
  a.map (fun p => (p.1, (metaLookup b p.1).getD p.2))
    ++ b.filter (fun p => (metaLookup a p.1).isNone)

/-- SQLite constraint failures surfaced by better-sqlite3 as thrown errors. -/
inductive SqlError where
  | primaryKeyViolation
  | foreignKeyViolation
deriving DecidableEq, Repr

/-- `link(sourceId, targetId, relation, strength)`:
`INSERT OR REPLACE INTO memory_links ...`.  With `foreign_keys = ON` the
insert throws when either endpoint id has no row in `memories`; a
soft-deleted row still satisfies the constraint. -/
def linkRun (sourceId targetId relation : String) (strength : ℚ) (s : EngineState) :
    (Except SqlError SuccessResult) × EngineState :=
  if s.memories.any (fun m => m.id == sourceId) && s.memories.any (fun m => m.id == targetId)
  then
    (.ok ⟨true⟩,
      { s with links :=
          (s.links.filter (fun l => !(l.source_id == sourceId && l.target_id == targetId)))
            ++ [⟨sourceId, targetId, relation, strength⟩] })
  else (.error .foreignKeyViolation, s)

/-- The `getById` prepared statement:
`SELECT * FROM memories WHERE id = ? AND is_deleted = 0`. -/
def getById (id : String) (s : EngineState) : Option Memory :=
  s.memories.find? (fun m => m.id == id && m.is_deleted == false)

/-- The `insertTag` prepared statement:
`INSERT OR IGNORE INTO memory_tags (memory_id, tag) VALUES (?, ?)`. -/
def insertTagRun (id tag : String) (s : EngineState) : EngineState :=
  if s.memTags.contains (id, tag) then s
  else { s with memTags := s.memTags ++ [(id, tag)] }

/-- The update payload of `update(id, updates)` (absent fields keep the
existing values via `??`). -/
structure UpdateReq where
  content : Option String := none
  summary : Option String := none
  importance : Option Importance := none
  metadata : Option (List (String × String)) := none
  containerTags : Option (List String) := none

/-- Return value of `update`: `{ success: false, error: 'Memory not found' }`
or `{ success: true, id }`. -/
inductive UpdateResult where
  | notFound
  | ok (id : String)
deriving DecidableEq, Repr

/-- `update(id, updates)`: not-found unless a live row exists; otherwise
overwrite content/summary/importance, spread new metadata over the old,
recompute the embedding only when content changed and an embedding function
exists, replace all tag associations when new tags are given, and stamp
`updated_at`. -/
def updateRun (cfg : EngineConfig) (id : String) (u : UpdateReq) (now : Int)
    (s : EngineState) : UpdateResult × EngineState :=
  match getById id s with
  | none => (.notFound, s)
  | some existing =>
    let content := u.content.getD existing.content
    let summary := match u.summary with | some v => some v | none => existing.summary
    let importance := u.importance.getD existing.importance
    let meta := match u.metadata with
      | some md => jsSpread existing.metadata md
      | none => existing.metadata
    let eb : Option (List ℚ) × List (String × List ℚ) :=
      match u.content, cfg.embedFn with
      | some _, some ef =>
        let r := getEmbedding ef cfg.hashFn cfg.embeddingCacheMaxSize s.embeddingCache content
        (some r.1, r.2)
      | _, _ => (existing.embedding, s.embeddingCache)
    let s1 : EngineState :=
      { memories := s.memories.map (fun m =>
          if m.id == id then
            { m with
              content := content,
              summary := summary,
              importance := importance,
              metadata := meta,
              embedding := eb.1,
              updated_at := now }
          else m),
        memTags := s.memTags,
        links := s.links,
        embeddingCache := eb.2 }
    let s2 := match u.containerTags with
      | some tags =>
        tags.foldl (fun acc t => insertTagRun id t acc)
          { s1 with memTags := s1.memTags.filter (fun p => !(p.1 == id)) }
      | none => s1
    (.ok id, s2)

/-- The `CASE` ranking of `getProfile`:
critical ↦ 1, high ↦ 2, normal ↦ 3, else 4. -/
def profImpCase : Importance → Nat
  | .critical => 1
  | .high => 2
  | .normal => 3
  | .low => 4

/-- The static-facts query of `getProfile` (selected rows, before the
content/importance projection): tag-scoped, `memory_type = 'static'`,
non-deleted, ordered by the importance `CASE` ascending then `updated_at`
descending. -/
def profileStaticRows (tags : List String) (s : EngineState) : List Memory :=
  sortKeep (fun a b : Memory =>
      profImpCase a.importance < profImpCase b.importance
      ∨ (profImpCase a.importance = profImpCase b.importance ∧ b.updated_at ≤ a.updated_at))
    (s.memories.filter (fun m => tags.any (fun t => s.memTags.contains (m.id, t))
      && m.memory_type == .static && m.is_deleted == false))

/-- The recent-context query of `getProfile`: tag-scoped dynamic/episodic
non-deleted rows, most recently updated first, `LIMIT 30`. -/
def profileDynamicRows (tags : List String) (s : EngineState) : List Memory :=
  (sortKeep (fun a b : Memory => b.updated_at ≤ a.updated_at)
    (s.memories.filter (fun m => tags.any (fun t => s.memTags.contains (m.id, t))
      && (m.memory_type == .dynamic || m.memory_type == .episodic)
      && m.is_deleted == false))).take 30

/-! ## C5: not-found behaviour of delete / restore / link -/

def emptyState : EngineState :=
  { memories := [], memTags := [], links := [], embeddingCache := [] }

/-- A live record and a soft-deleted record for exercising `link`. -/
def c5State : EngineState :=
  { memories :=
      [ { id := "x", content := "live", summary := none, memory_type := .static,
          importance := .normal, source := "user", metadata := [], embedding := none,
          access_count := 0, last_accessed_at := none, is_deleted := false,
          created_at := 0, updated_at := 0 },
        { id := "d", content := "gone", summary := none, memory_type := .static,
          importance := .normal, source := "user", metadata := [], embedding := none,
          access_count := 0, last_accessed_at := none, is_deleted := true,
          created_at := 0, updated_at := 0 } ],
    memTags := [("x", "t"), ("d", "t")], links := [], embeddingCache := [] }

/-- C5 is false as stated: `delete` and `restore` on an id that names no
record report `{ success: true }` (and change nothing) instead of failing
with a not-found error, and `link` onto a soft-deleted endpoint succeeds
instead of failing. -/
theorem C5_counterexample :
    ((deleteRun "missing" false 0 emptyState).1 = ⟨true⟩
      ∧ (deleteRun "missing" false 0 emptyState).2 = emptyState)
    ∧ ((restoreRun "missing" 0 emptyState).1 = ⟨true⟩
      ∧ (restoreRun "missing" 0 emptyState).2 = emptyState)
    ∧ ((linkRun "x" "d" "related" 1 c5State).1 = .ok ⟨true⟩) := by
  refine ⟨⟨rfl, rfl⟩, ⟨rfl, rfl⟩, ?_⟩
  rw [linkRun, if_pos (by decide)]

/-- The statement of the amended claim C5: `update` on an id with no live
row reports not-found and changes nothing; `delete(id)` (soft) and
`restore(id)` report `{ success: true }` unconditionally; `link` throws a
foreign-key violation exactly when one of its endpoint ids names no row of
`memories` at all — in particular a soft-deleted endpoint is accepted. -/
def C5Statement (cfg : EngineConfig) (id : String) (u : UpdateReq) (now : Int)
    (s : EngineState) (src tgt rel : String) (strength : ℚ) : Prop :=
  (updateRun cfg id u now s = (.notFound, s))
  ∧ ((deleteRun id false now s).1 = ⟨true⟩)
  ∧ ((restoreRun id now s).1 = ⟨true⟩)
  ∧ ((linkRun src tgt rel strength s).1 = .error .foreignKeyViolation
      ↔ (∀ m ∈ s.memories, m.id ≠ src) ∨ (∀ m ∈ s.memories, m.id ≠ tgt))

/-- C5 (amended): see `C5Statement`; the not-found hypothesis applies to the
`update` conjunct. -/
theorem C5_notfound_amended (cfg : EngineConfig) (id : String) (u : UpdateReq) (now : Int)
    (s : EngineState) (src tgt rel : String) (strength : ℚ)
    (hno : getById id s = none) :
    C5Statement cfg id u now s src tgt rel strength := by
  refine ⟨?_, rfl, rfl, ?_⟩
  · rw [updateRun, hno]
  · rw [linkRun]
    by_cases h : (s.memories.any (fun m => m.id == src)
        && s.memories.any (fun m => m.id == tgt)) = true
    · rw [if_pos h]
      simp only [Bool.and_eq_true, List.any_eq_true, beq_iff_eq] at h
      constructor
      · intro hfalse
        exact absurd hfalse (by simp)
      · intro hor
        rcases h with ⟨⟨m1, hm1, he1⟩, ⟨m2, hm2, he2⟩⟩
        rcases hor with hall | hall
        · exact absurd he1 (hall m1 hm1)
        · exact absurd he2 (hall m2 hm2)
    · rw [if_neg h]
      simp only [Bool.and_eq_true, List.any_eq_true, beq_iff_eq, not_and_or] at h
      constructor
      · intro _
        rcases h with hno1 | hno2
        · exact Or.inl (fun m hm he => hno1 ⟨m, hm, he⟩)
        · exact Or.inr (fun m hm he => hno2 ⟨m, hm, he⟩)
      · intro _
        rfl

def c5Cfg : EngineConfig :=
  { embedFn := none, hashFn := fun h => h, embeddingCacheMaxSize := 5000, hasFTS := false }

theorem C5_notfound_witness :
    (getById "missing" emptyState = none)
    ∧ C5Statement c5Cfg "missing" {} 0 emptyState "a" "b" "related" 1 :=
  ⟨rfl, C5_notfound_amended c5Cfg "missing" {} 0 emptyState "a" "b" "related" 1 rfl⟩

/-! ## C4: soft delete hides, restore resurfaces -/

/-- After `softDelete(X)`, every stored row carrying id `X` is marked
deleted. -/
theorem softDeleteRun_id_deleted (X : String) (now : Int) (s : EngineState) :
    ∀ m ∈ (softDeleteRun X now s).memories, m.id = X → m.is_deleted = true := by
  intro m hm hid
  rcases List.mem_map.mp hm with ⟨m0, _, rfl⟩
  by_cases h : (m0.id == X) = true
  · rw [if_pos h]
  · rw [if_neg h] at hid ⊢
    exact absurd (beq_iff_eq.mpr hid) h

/-- Every ranked candidate of a search call is a stored row matching the
deletion filter. -/
theorem searchRanked_sourced (cfg : EngineConfig) (fM : Memory → Bool) (fR : Memory → ℚ)
    (q : String) (tags : List String) (limit : Nat) (mtypes : List MemoryType)
    (minImp : Option Importance) (incDel : Bool) (now : Int) (s : EngineState) :
    ∀ r ∈ (searchRanked cfg fM fR q tags limit mtypes minImp incDel now s).1,
      r.mem ∈ s.memories ∧ r.mem.is_deleted = incDel := by
  intro r hr
  cases hef : cfg.embedFn with
  | some ef =>
    simp only [searchRanked, hef] at hr
    rcases mergeAndRank_sourced _ _ _ _ _ r hr with ⟨f, hf, hmem⟩ | ⟨v, hv, hmem⟩
    · rw [hmem]
      exact ftsSearch_sourced cfg.hasFTS fM fR q tags (limit * 2) incDel mtypes s f hf
    · rw [hmem]
      have := vectorSearch_sourced _ tags (limit * 2) incDel mtypes s v hv
      exact ⟨this.1, this.2.1⟩
  | none =>
    simp only [searchRanked, hef] at hr
    rcases mergeAndRank_sourced _ _ _ _ _ r hr with ⟨f, hf, hmem⟩ | ⟨v, hv, _⟩
    · rw [hmem]
      exact ftsSearch_sourced cfg.hasFTS fM fR q tags (limit * 2) incDel mtypes s f hf
    · exact absurd hv (List.not_mem_nil v)

/-- Every returned search result projects a ranked candidate (same id). -/
theorem search_results_sourced (cfg : EngineConfig) (fM : Memory → Bool) (fR : Memory → ℚ)
    (q : String) (tags : List String) (limit : Nat) (ifd : Bool) (mtypes : List MemoryType)
    (minImp : Option Importance) (incDel : Bool) (now : Int) (s : EngineState) :
    ∀ r ∈ (search cfg fM fR q tags limit ifd mtypes minImp incDel now s).1,
      ∃ rr ∈ (searchRanked cfg fM fR q tags limit mtypes minImp incDel now s).1,
        r.id = rr.mem.id := by
  intro r hr
  simp only [search] at hr
  rcases List.mem_map.mp hr with ⟨rr, hrr, rfl⟩
  exact ⟨rr, List.mem_of_mem_take hrr, rfl⟩

/-- A pair present in the tag table is found by `List.contains`. -/
theorem contains_pair_of_mem (l : List (String × String)) (a : String × String)
    (h : a ∈ l) : l.contains a = true := by
  simpa using List.elem_iff.mpr h

/-- The `byId` fold over the lexical results has an entry for the id of
every lexical row (and for every key already present). -/
theorem mergeFold1_covers :
    ∀ (l : List FtsRow) (acc : List (String × MergedRow)) (k : String),
      ((∃ p ∈ acc, p.1 = k) ∨ (∃ f ∈ l, f.mem.id = k)) →
      ∃ p ∈ l.foldl (fun acc r =>
          if acc.any (fun p => p.1 == r.mem.id)
          then acc.map (fun p => if p.1 == r.mem.id then (p.1, MergedRow.mk r.mem r.ftsScore 0) else p)
          else acc ++ [(r.mem.id, MergedRow.mk r.mem r.ftsScore 0)]) acc,
        p.1 = k := by
  intro l
  induction l with
  | nil =>
    intro acc k h
    rcases h with h | ⟨f, hf, _⟩
    · exact h
    · exact absurd hf (List.not_mem_nil f)
  | cons r rest ih =>
    intro acc k h
    rw [List.foldl_cons]
    apply ih
    have keyStable : ∀ p : String × MergedRow,
        ((if p.1 == r.mem.id then (p.1, MergedRow.mk r.mem r.ftsScore 0) else p)).1 = p.1 := by
      intro p
      by_cases hp : (p.1 == r.mem.id) = true
      · rw [if_pos hp]
      · rw [if_neg hp]
    rcases h with ⟨p, hp, hpk⟩ | ⟨f, hf, hfk⟩
    · left
      by_cases hany : (acc.any (fun p => p.1 == r.mem.id)) = true
      · rw [if_pos hany]
        exact ⟨_, List.mem_map_of_mem _ hp, (keyStable p).trans hpk⟩
      · rw [if_neg hany]
        exact ⟨p, List.mem_append_left _ hp, hpk⟩
    · rcases List.mem_cons.mp hf with rfl | hfrest
      · left
        by_cases hany : (acc.any (fun p => p.1 == f.mem.id)) = true
        · rw [if_pos hany]
          rcases List.any_eq_true.mp hany with ⟨p, hp, hpk⟩
          exact ⟨_, List.mem_map_of_mem _ hp,
            (keyStable p).trans ((beq_iff_eq.mp hpk).trans hfk)⟩
        · rw [if_neg hany]
          exact ⟨(f.mem.id, MergedRow.mk f.mem f.ftsScore 0),
            List.mem_append_right _ (List.mem_singleton_self _), hfk⟩
      · right
        exact ⟨f, hfrest, hfk⟩

/-- The `byId` fold over the lexical results produces at most one entry per
processed row. -/
theorem mergeFold1_length :
    ∀ (l : List FtsRow) (acc : List (String × MergedRow)),
      (l.foldl (fun acc r =>
          if acc.any (fun p => p.1 == r.mem.id)
          then acc.map (fun p => if p.1 == r.mem.id then (p.1, MergedRow.mk r.mem r.ftsScore 0) else p)
          else acc ++ [(r.mem.id, MergedRow.mk r.mem r.ftsScore 0)]) acc).length
        ≤ acc.length + l.length := by
  intro l
  induction l with
  | nil => intro acc; simp
  | cons r rest ih =>
    intro acc
    rw [List.foldl_cons]
    refine le_trans (ih _) ?_
    by_cases hany : (acc.any (fun p => p.1 == r.mem.id)) = true
    · rw [if_pos hany]
      simp
      try omega
    · rw [if_neg hany]
      simp
      try omega

/-- A stored row satisfying the keyword WHERE clause appears among the
keyword candidates whenever the scoped row count fits the candidate limit. -/
theorem keywordSearch_complete (q : String) (tags : List String) (limit : Nat)
    (incDel : Bool) (mtypes : List MemoryType) (s : EngineState) (m : Memory)
    (hm : m ∈ s.memories)
    (hcond : (m.is_deleted == incDel
      && ((splitWs (jsToLower q)).filter (fun w => 2 < w.length)).any
          (fun w => decide (List.IsInfix w.toList (jsToLower m.content).toList))
      && tagOk tags s.memTags m && typeOk mtypes m) = true)
    (hne : ((splitWs (jsToLower q)).filter (fun w => 2 < w.length)) ≠ [])
    (hlim : s.memories.length ≤ limit) :
    ∃ fr ∈ keywordSearch q tags limit incDel mtypes s, fr.mem = m := by
  simp only [keywordSearch]
  rw [if_neg (fun h => hne (by simpa using h))]
  have hfil : m ∈ s.memories.filter (fun m => m.is_deleted == incDel
      && ((splitWs (jsToLower q)).filter (fun w => 2 < w.length)).any
          (fun w => decide (List.IsInfix w.toList (jsToLower m.content).toList))
      && tagOk tags s.memTags m && typeOk mtypes m) :=
    List.mem_filter.mpr ⟨hm, hcond⟩
  have hsorted : m ∈ sortKeep (fun a b : Memory => b.updated_at ≤ a.updated_at)
      (s.memories.filter (fun m => m.is_deleted == incDel
        && ((splitWs (jsToLower q)).filter (fun w => 2 < w.length)).any
            (fun w => decide (List.IsInfix w.toList (jsToLower m.content).toList))
        && tagOk tags s.memTags m && typeOk mtypes m)) :=
    (mem_sortKeep _ _ _).mpr hfil
  have hlen : (sortKeep (fun a b : Memory => b.updated_at ≤ a.updated_at)
      (s.memories.filter (fun m => m.is_deleted == incDel
        && ((splitWs (jsToLower q)).filter (fun w => 2 < w.length)).any
            (fun w => decide (List.IsInfix w.toList (jsToLower m.content).toList))
        && tagOk tags s.memTags m && typeOk mtypes m))).length ≤ limit := by
    rw [length_sortKeep]
    exact le_trans (List.length_filter_le _ _) hlim
  rw [List.take_of_length_le hlen]
  exact ⟨_, List.mem_map_of_mem _ hsorted, rfl⟩

/-- The keyword candidate list never exceeds the scoped row count. -/
theorem keywordSearch_length_le (q : String) (tags : List String) (limit : Nat)
    (incDel : Bool) (mtypes : List MemoryType) (s : EngineState) :
    (keywordSearch q tags limit incDel mtypes s).length ≤ s.memories.length := by
  simp only [keywordSearch]
  split
  · simp only [getRecent, List.length_map, List.length_take, length_sortKeep]
    exact le_trans (min_le_right _ _) (List.length_filter_le _ _)
  · simp only [List.length_map, List.length_take, length_sortKeep]
    exact le_trans (min_le_right _ _) (List.length_filter_le _ _)

/-- With no embedding function and no FTS5, a stored row that matches the
query keyword, carries a requested tag, and fits the limit is surfaced by
the public `search`. -/
theorem search_surfaces (cfg : EngineConfig) (fM : Memory → Bool) (fR : Memory → ℚ)
    (q w t : String) (tags : List String) (limit : Nat) (now : Int)
    (s : EngineState) (m2 : Memory)
    (hcfge : cfg.embedFn = none) (hcfgf : cfg.hasFTS = false)
    (hm2 : m2 ∈ s.memories) (hdel : m2.is_deleted = false)
    (hw : w ∈ (splitWs (jsToLower q)).filter (fun w2 => 2 < w2.length))
    (hsub : decide (List.IsInfix w.toList (jsToLower m2.content).toList) = true)
    (ht : t ∈ tags) (htag : (m2.id, t) ∈ s.memTags)
    (hlimit : s.memories.length ≤ limit) :
    ∃ r ∈ (search cfg fM fR q tags limit true [] none false now s).1, r.id = m2.id := by
  have hne : ((splitWs (jsToLower q)).filter (fun w2 => 2 < w2.length)) ≠ [] :=
    List.ne_nil_of_mem hw
  have hcond : (m2.is_deleted == false
      && ((splitWs (jsToLower q)).filter (fun w2 => 2 < w2.length)).any
          (fun w2 => decide (List.IsInfix w2.toList (jsToLower m2.content).toList))
      && tagOk tags s.memTags m2 && typeOk [] m2) = true := by
    simp only [Bool.and_eq_true]
    refine ⟨⟨⟨by simp [hdel], List.any_eq_true.mpr ⟨w, hw, hsub⟩⟩, ?_⟩, rfl⟩
    simp only [tagOk, Bool.or_eq_true]
    exact Or.inr (List.any_eq_true.mpr ⟨t, ht, contains_pair_of_mem _ _ htag⟩)
  rcases keywordSearch_complete q tags (limit * 2) false [] s m2 hm2 hcond hne
    (le_trans hlimit (by omega)) with ⟨fr, hfr, hfrm⟩
  -- the ftsSearch fallback is the keyword search
  have hfts : ftsSearch cfg.hasFTS fM fR q tags (limit * 2) false [] s
      = keywordSearch q tags (limit * 2) false [] s := by
    rw [hcfgf]
    rfl
  -- an entry with this id survives the byId merge
  have hcover := mergeFold1_covers (ftsSearch cfg.hasFTS fM fR q tags (limit * 2) false [] s)
    [] m2.id (Or.inr ⟨fr, by rw [hfts]; exact hfr, by rw [hfrm]⟩)
  rcases hcover with ⟨p, hp, hpk⟩
  have hinv := mergeFold1_inv (ftsSearch cfg.hasFTS fM fR q tags (limit * 2) false [] s)
    (ftsSearch cfg.hasFTS fM fR q tags (limit * 2) false [] s) [] (fun f hf => hf)
    (fun p hp => absurd hp (List.not_mem_nil p)) p hp
  have hkmem : p.2 ∈ mergeCandidates (ftsSearch cfg.hasFTS fM fR q tags (limit * 2) false [] s) [] := by
    simp only [mergeCandidates, List.foldl_nil]
    exact List.mem_map_of_mem _ hp
  have hkid : p.2.mem.id = m2.id := by rw [← hinv.2.2, hpk]
  -- the merged candidate passes the (absent) minimum-importance filter
  have hkept : p.2 ∈ (mergeCandidates (ftsSearch cfg.hasFTS fM fR q tags (limit * 2) false [] s)
      []).filter (fun r => match (none : Option Importance) with
        | some mi => !decide (IMPORTANCE_WEIGHTS r.mem.importance < IMPORTANCE_WEIGHTS mi)
        | none => true) :=
    List.mem_filter.mpr ⟨hkmem, rfl⟩
  -- hence a ranked row with this id
  have hranked : scoreRow now s.memTags p.2 ∈ mergeAndRank now s.memTags
      (ftsSearch cfg.hasFTS fM fR q tags (limit * 2) false [] s) [] none := by
    simp only [mergeAndRank]
    exact (mem_sortKeep _ _ _).mpr (List.mem_map_of_mem _ hkept)
  -- the ranked list fits within the final limit
  have hrlen : (mergeAndRank now s.memTags
      (ftsSearch cfg.hasFTS fM fR q tags (limit * 2) false [] s) [] none).length ≤ limit := by
    simp only [mergeAndRank]
    rw [length_sortKeep, List.length_map]
    refine le_trans (List.length_filter_le _ _) ?_
    simp only [mergeCandidates, List.foldl_nil, List.length_map]
    refine le_trans (mergeFold1_length _ []) ?_
    simp only [List.length_nil, Nat.zero_add]
    rw [hfts]
    exact le_trans (keywordSearch_length_le q tags (limit * 2) false [] s) hlimit
  -- conclude through the public search projection
  simp only [search, searchRanked, hcfge]
  rw [List.take_of_length_le hrlen]
  exact ⟨_, List.mem_map_of_mem _ hranked, hkid⟩

/-- A tag-scoped, live, static row is selected by the `getProfile` static
query. -/
theorem profileStatic_surfaces (tags : List String) (t : String) (s : EngineState)
    (m2 : Memory) (hm2 : m2 ∈ s.memories) (hstatic : m2.memory_type = .static)
    (hdel : m2.is_deleted = false) (ht : t ∈ tags) (htag : (m2.id, t) ∈ s.memTags) :
    m2 ∈ profileStaticRows tags s := by
  simp only [profileStaticRows]
  refine (mem_sortKeep _ _ _).mpr (List.mem_filter.mpr ⟨hm2, ?_⟩)
  simp only [Bool.and_eq_true]
  exact ⟨⟨List.any_eq_true.mpr ⟨t, ht, contains_pair_of_mem _ _ htag⟩, by simp [hstatic]⟩,
    by simp [hdel]⟩

/-- After a soft delete of `X`, no `getProfile` static row carries id `X`. -/
theorem profileStaticRows_hides (tags : List String) (X : String) (now : Int)
    (s : EngineState) : ∀ mm ∈ profileStaticRows tags (softDeleteRun X now s), mm.id ≠ X := by
  intro mm hmm hidX
  simp only [profileStaticRows] at hmm
  rcases List.mem_filter.mp ((mem_sortKeep _ _ _).mp hmm) with ⟨hmem, hcond⟩
  simp only [Bool.and_eq_true, beq_iff_eq] at hcond
  have hdel := softDeleteRun_id_deleted X now s mm hmem hidX
  rw [hcond.2] at hdel
  exact Bool.false_ne_true hdel

/-- After a soft delete of `X`, no `getProfile` dynamic row carries id `X`. -/
theorem profileDynamicRows_hides (tags : List String) (X : String) (now : Int)
    (s : EngineState) : ∀ mm ∈ profileDynamicRows tags (softDeleteRun X now s), mm.id ≠ X := by
  intro mm hmm hidX
  simp only [profileDynamicRows] at hmm
  rcases List.mem_filter.mp ((mem_sortKeep _ _ _).mp (List.mem_of_mem_take hmm)) with ⟨hmem, hcond⟩
  simp only [Bool.and_eq_true, beq_iff_eq] at hcond
  have hdel := softDeleteRun_id_deleted X now s mm hmem hidX
  rw [hcond.2] at hdel
  exact Bool.false_ne_true hdel

/-- After a soft delete of `X`, no result of any default (`includeDeleted`
off) search call carries id `X`. -/
theorem search_hides (cfg : EngineConfig) (fM : Memory → Bool) (fR : Memory → ℚ)
    (q : String) (tags : List String) (limit : Nat) (ifd : Bool)
    (mtypes : List MemoryType) (minImp : Option Importance) (nowq : Int)
    (X : String) (now1 : Int) (s : EngineState) :
    ∀ r ∈ (search cfg fM fR q tags limit ifd mtypes minImp false nowq
        (softDeleteRun X now1 s)).1, r.id ≠ X := by
  intro r hr hidX
  rcases search_results_sourced cfg fM fR q tags limit ifd mtypes minImp false nowq
    (softDeleteRun X now1 s) r hr with ⟨rr, hrr, hid⟩
  have hsrc := searchRanked_sourced cfg fM fR q tags limit mtypes minImp false nowq
    (softDeleteRun X now1 s) rr hrr
  have hdel := softDeleteRun_id_deleted X now1 s rr.mem hsrc.1 (by rw [← hid]; exact hidX)
  rw [hsrc.2] at hdel
  exact Bool.false_ne_true hdel

/-- Soft delete then restore leaves every row's id and content untouched. -/
theorem delete_restore_content (X : String) (now1 now2 : Int) (s : EngineState) :
    (restoreRun X now2 (softDeleteRun X now1 s)).2.memories.map (fun mm => (mm.id, mm.content))
      = s.memories.map (fun mm => (mm.id, mm.content)) := by
  simp only [restoreRun, softDeleteRun, List.map_map]
  refine List.map_congr_left ?_
  intro m0 _
  by_cases h : (m0.id == X) = true
  · simp [Function.comp, h]
  · simp [Function.comp, h]

/-- The restored tables: the memories are the original ones with the id-`X`
rows marked live and freshly stamped; the other tables are untouched. -/
theorem restore_delete_memories (X : String) (now1 now2 : Int) (s : EngineState) :
    (restoreRun X now2 (softDeleteRun X now1 s)).2.memories
      = s.memories.map (fun m0 =>
          if m0.id == X then { m0 with is_deleted := false, updated_at := now2 } else m0) := by
  simp only [restoreRun, softDeleteRun, List.map_map]
  refine List.map_congr_left ?_
  intro m0 _
  by_cases h : (m0.id == X) = true
  · simp [Function.comp, h]
  · simp [Function.comp, h]

/-- The full statement of claim C4 for a record `m` with id `X`: after a
soft delete, no default search call and no `getProfile` static or dynamic
row surfaces `X`; after a subsequent restore every row keeps its original
content byte for byte, and both `search` (under the stated keyword-match
conditions) and the `getProfile` static list (when `m` is static) surface
`X` again. -/
def C4Statement (s : EngineState) (X : String) (now1 now2 : Int) (m : Memory)
    (cfg : EngineConfig) (fM : Memory → Bool) (fR : Memory → ℚ) (q' : String)
    (tags' : List String) (limit' : Nat) (ifd' : Bool) (mtypes' : List MemoryType)
    (minImp' : Option Importance) (nowq : Int) (cfg2 : EngineConfig) (q : String)
    (tags : List String) (limit : Nat) (nowq2 : Int) : Prop :=
  (∀ r ∈ (search cfg fM fR q' tags' limit' ifd' mtypes' minImp' false nowq
      (softDeleteRun X now1 s)).1, r.id ≠ X)
  ∧ (∀ mm ∈ profileStaticRows tags' (softDeleteRun X now1 s), mm.id ≠ X)
  ∧ (∀ mm ∈ profileDynamicRows tags' (softDeleteRun X now1 s), mm.id ≠ X)
  ∧ ((restoreRun X now2 (softDeleteRun X now1 s)).2.memories.map (fun mm => (mm.id, mm.content))
      = s.memories.map (fun mm => (mm.id, mm.content)))
  ∧ (∃ r ∈ (search cfg2 fM fR q tags limit true [] none false nowq2
      (restoreRun X now2 (softDeleteRun X now1 s)).2).1, r.id = X)
  ∧ (m.memory_type = .static →
      ∃ mm ∈ profileStaticRows tags (restoreRun X now2 (softDeleteRun X now1 s)).2,
        mm.id = X ∧ mm.content = m.content)

/-- C4: soft delete hides a record from search and profile; restore brings
it back with its content intact. -/
theorem C4_soft_delete_restore (s : EngineState) (X : String) (now1 now2 : Int)
    (m : Memory) (cfg : EngineConfig) (fM : Memory → Bool) (fR : Memory → ℚ)
    (q' : String) (tags' : List String) (limit' : Nat) (ifd' : Bool)
    (mtypes' : List MemoryType) (minImp' : Option Importance) (nowq : Int)
    (cfg2 : EngineConfig) (q w t : String) (tags : List String) (limit : Nat) (nowq2 : Int)
    (hm : m ∈ s.memories) (hid : m.id = X)
    (hcfg2e : cfg2.embedFn = none) (hcfg2f : cfg2.hasFTS = false)
    (hw : w ∈ (splitWs (jsToLower q)).filter (fun w2 => 2 < w2.length))
    (hsub : decide (List.IsInfix w.toList (jsToLower m.content).toList) = true)
    (ht : t ∈ tags) (htag : (X, t) ∈ s.memTags)
    (hlimit : s.memories.length ≤ limit) :
    C4Statement s X now1 now2 m cfg fM fR q' tags' limit' ifd' mtypes' minImp' nowq
      cfg2 q tags limit nowq2 := by
  have hm2mem : ({ m with is_deleted := false, updated_at := now2 } : Memory)
      ∈ (restoreRun X now2 (softDeleteRun X now1 s)).2.memories := by
    rw [restore_delete_memories]
    have := List.mem_map_of_mem (fun m0 =>
      if m0.id == X then { m0 with is_deleted := false, updated_at := now2 } else m0) hm
    dsimp only at this
    rwa [if_pos (beq_iff_eq.mpr hid)] at this
  refine ⟨search_hides cfg fM fR q' tags' limit' ifd' mtypes' minImp' nowq X now1 s,
    profileStaticRows_hides tags' X now1 s,
    profileDynamicRows_hides tags' X now1 s,
    delete_restore_content X now1 now2 s, ?_, ?_⟩
  · have := search_surfaces cfg2 fM fR q w t tags limit nowq2
      (restoreRun X now2 (softDeleteRun X now1 s)).2
      { m with is_deleted := false, updated_at := now2 }
      hcfg2e hcfg2f hm2mem rfl hw hsub ht
      (by rw [← hid] at htag; exact htag)
      (by simp only [restoreRun, softDeleteRun, List.length_map]; exact hlimit)
    rcases this with ⟨r, hr, hrid⟩
    exact ⟨r, hr, by rw [hrid]; exact hid⟩
  · intro hstatic
    refine ⟨{ m with is_deleted := false, updated_at := now2 },
      profileStatic_surfaces tags t _ _ hm2mem hstatic rfl ht
        (by rw [← hid] at htag; exact htag), hid, rfl⟩

/-- A concrete record for exercising claim C4. -/
def c4Mem : Memory :=
  { id := "X", content := "hello world", summary := none, memory_type := .static,
    importance := .normal, source := "user", metadata := [], embedding := none,
    access_count := 0, last_accessed_at := none, is_deleted := false,
    created_at := 0, updated_at := 0 }

def c4State : EngineState :=
  { memories := [c4Mem], memTags := [("X", "t")], links := [], embeddingCache := [] }

theorem C4_witness :
    (c4Mem ∈ c4State.memories ∧ c4Mem.id = "X"
      ∧ c5Cfg.embedFn = none ∧ c5Cfg.hasFTS = false
      ∧ "hello" ∈ (splitWs (jsToLower "hello")).filter (fun w2 => 2 < w2.length)
      ∧ decide (List.IsInfix "hello".toList (jsToLower c4Mem.content).toList) = true
      ∧ "t" ∈ ["t"] ∧ ("X", "t") ∈ c4State.memTags ∧ c4State.memories.length ≤ 1)
    ∧ C4Statement c4State "X" 1 2 c4Mem c5Cfg (fun _ => false) (fun _ => 0) "zz" [] 3 true
        [] none 0 c5Cfg "hello" ["t"] 1 5 :=
  ⟨⟨by decide, rfl, rfl, rfl, by decide, by decide, by decide, by decide, by decide⟩,
    C4_soft_delete_restore c4State "X" 1 2 c4Mem c5Cfg (fun _ => false) (fun _ => 0) "zz" [] 3
      true [] none 0 c5Cfg "hello" "hello" "t" ["t"] 1 5
      (by decide) rfl rfl rfl (by decide) (by decide) (by decide) (by decide) (by decide)⟩

/-! ## `add`: insert, dedup/merge, chunking -/

/-- The request object of `add` with its source defaults. -/
structure AddReq where
  content : String
  containerTags : List String := ["default"]
  customId : Option String := none
  metadata : List (String × String) := []
  memoryType : MemoryType := .dynamic
  importance : Importance := .normal
  source : String := "user"
  summary : Option String := none
  autoChunk : Bool := true
  deduplicate : Bool := true

/-- Return value of `add`: a fresh insert, a dedup merge
(`{ id, merged: true, content }`), or a chunked insert
(`{ id, chunks, tags }`). -/
inductive AddResult where
  | added (id : String) (content : String) (summary : Option String) (tags : List String)
      (memoryType : MemoryType) (importance : Importance)
  | merged (id : String) (content : String)
  | chunked (id : String) (chunks : Nat) (tags : List String)
deriving DecidableEq, Repr

/-- The `insertMemory` prepared statement: `INSERT INTO memories ...`; the
`id TEXT PRIMARY KEY` constraint makes the insert throw when a row with the
same id already exists (deleted or not). -/
def insertMemoryRun (id content : String) (summary : Option String)
    (memoryType : MemoryType) (importance : Importance) (source : String)
    (metadata : List (String × String)) (embedding : Option (List ℚ)) (now : Int)
    (s : EngineState) : Except SqlError EngineState :=
  if s.memories.any (fun m => m.id == id) then .error .primaryKeyViolation
  else .ok { s with memories := s.memories ++
    [{ id := id, content := content, summary := summary, memory_type := memoryType,
       importance := importance, source := source, metadata := metadata,
       embedding := embedding, access_count := 0, last_accessed_at := none,
       is_deleted := false, created_at := now, updated_at := now }] }

/-- The scan window of `_findDuplicate`: the 100 most-recently-updated
non-deleted rows with a stored embedding sharing one of the target tags. -/
def dupWindow (tags : List String) (s : EngineState) : List Memory :=
  (sortKeep (fun a b : Memory => b.updated_at ≤ a.updated_at)
    (s.memories.filter (fun m => tags.any (fun t => s.memTags.contains (m.id, t))
      && m.is_deleted == false && m.embedding.isSome))).take 100

/-- The scan loop of `_findDuplicate`: the first window row whose stored
embedding has cosine similarity at least `SIMILARITY_MERGE_THRESHOLD`
against the query embedding. -/
noncomputable def firstSimilar (qv : List ℚ) : List Memory → Option Memory
  | [] => none
  | m :: rest =>
    if SIMILARITY_MERGE_THRESHOLD ≤ cosineSimilarity qv (m.embedding.getD [])
    then some m else firstSimilar qv rest

/-- `_findDuplicate(content, tags)` given the embedding of the new content. -/
noncomputable def findDuplicate (qv : List ℚ) (tags : List String) (s : EngineState) :
    Option Memory :=
  firstSimilar qv (dupWindow tags s)

/-- `new Date().toISOString()`, modelled as rendering the abstract instant. -/
def isoTimestamp (now : Int) : String := toString now

/-- `_mergeMemory(existing, { content, metadata, importance })`: keep the
longer content, spread the incoming metadata over the existing one and stamp
`_mergedAt`, upgrade the importance only if the incoming weight is strictly
higher, then run `updateMemory` (summary cleared, embedding kept, fresh
`updated_at`) on the existing id. -/
def mergeMemory (now : Int) (existing : Memory) (content : String)
    (metadata : List (String × String)) (importance : Importance) (s : EngineState) :
    AddResult × EngineState :=
  let merged := if content.length ≤ existing.content.length then existing.content else content
  let mergedMeta := jsSpread (jsSpread existing.metadata metadata)
    [("_mergedAt", isoTimestamp now)]
  let finalImportance :=
    if IMPORTANCE_WEIGHTS existing.importance < IMPORTANCE_WEIGHTS importance
    then importance else existing.importance
  (.merged existing.id merged,
    { s with memories := s.memories.map (fun m =>
        if m.id == existing.id then
          { m with
            content := merged,
            summary := none,
            importance := finalImportance,
            metadata := mergedMeta,
            embedding := existing.embedding,
            updated_at := now }
        else m) })

/-- The insert tail of `add`: pick `customId` or the fresh id, compute the
embedding through the cache when a provider is configured, and insert the
row plus its tag associations in one transaction (the thrown PRIMARY KEY
violation rolls the stored tables back; the in-memory cache update
survives). -/
noncomputable def addInsert (cfg : EngineConfig) (fresh : String) (now : Int) (req : AddReq)
    (s : EngineState) : (Except SqlError AddResult) × EngineState :=
  let id := req.customId.getD fresh
  let eb : Option (List ℚ) × List (String × List ℚ) :=
    match cfg.embedFn with
    | some ef =>
      let r := getEmbedding ef cfg.hashFn cfg.embeddingCacheMaxSize s.embeddingCache req.content
      (some r.1, r.2)
    | none => (none, s.embeddingCache)
  let s1 := { s with embeddingCache := eb.2 }
  match insertMemoryRun id req.content req.summary req.memoryType req.importance req.source
      req.metadata eb.1 now s1 with
  | .error e => (.error e, s1)
  | .ok s2 =>
    (.ok (.added id req.content req.summary req.containerTags req.memoryType req.importance),
      req.containerTags.foldl (fun acc t => insertTagRun id t acc) s2)

/-- The non-chunking path of `add`: when deduplication is requested and an
embedding function exists, embed the content and scan for a duplicate,
merging instead of inserting on a hit; otherwise insert. -/
noncomputable def addCore (cfg : EngineConfig) (fresh : String) (now : Int) (req : AddReq)
    (s : EngineState) : (Except SqlError AddResult) × EngineState :=
  match cfg.embedFn with
  | some ef =>
    if req.deduplicate then
      let qe := getEmbedding ef cfg.hashFn cfg.embeddingCacheMaxSize s.embeddingCache req.content
      let s1 := { s with embeddingCache := qe.2 }
      match findDuplicate qe.1 req.containerTags s1 with
      | some existing =>
        let r := mergeMemory now existing req.content req.metadata req.importance s1
        (.ok r.1, r.2)
      | none => addInsert cfg fresh now req s1
    else addInsert cfg fresh now req s
  | none => addInsert cfg fresh now req s

/-! ## `_chunkText` -/

mutual

/-- `text.split(/\n\n+/)`: a run of two or more newlines separates
paragraphs; a single newline is ordinary content.  `splitParasAux`
accumulates the current paragraph (a lone newline, including a trailing
one, stays in it); `splitParasSkip` consumes the rest of a separator run. -/
def splitParasAux : List Char → List Char → List (List Char)
  | [], acc => [acc.reverse]
  | c :: rest, acc =>
    if c = '\n' then splitParasNL rest acc else splitParasAux rest (c :: acc)

/-- State after one newline: a second newline confirms a separator,
anything else keeps the lone newline as paragraph content. -/
def splitParasNL : List Char → List Char → List (List Char)
  | [], acc => [('\n' :: acc).reverse]
  | c :: rest, acc =>
    if c = '\n' then acc.reverse :: splitParasSkip rest
    else splitParasAux rest (c :: '\n' :: acc)

def splitParasSkip : List Char → List (List Char)
  | [] => [[]]
  | c :: rest => if c = '\n' then splitParasSkip rest else splitParasAux rest [c]

end

/-- A sentence terminator of the regex `[^.!?]+[.!?]+`. -/
def isTerm (c : Char) : Bool := c == '.' || c == '!' || c == '?'

mutual

/-- `chunk.match(/[^.!?]+[.!?]+/g)`: the non-overlapping matches, each a
maximal run of non-terminators followed by a maximal run of terminators.
`sentStart` skips characters that cannot start a match, `sentBody` collects
the `[^.!?]+` part, `sentTerm` collects the `[.!?]+` part; a trailing body
with no terminator is not a match (the regex drops it). -/
def sentStart : List Char → List (List Char)
  | [] => []
  | c :: rest => if isTerm c then sentStart rest else sentBody rest [c]

def sentBody : List Char → List Char → List (List Char)
  | [], _ => []
  | c :: rest, acc => if isTerm c then sentTerm rest (c :: acc) else sentBody rest (c :: acc)

def sentTerm : List Char → List Char → List (List Char)
  | [], acc => [acc.reverse]
  | c :: rest, acc =>
    if isTerm c then sentTerm rest (c :: acc) else acc.reverse :: sentBody rest [c]

end

/-- `Array.prototype.join(' ')`. -/
def joinSpace : List String → String
  | [] => ""
  | x :: xs => xs.foldl (fun a b => a ++ " " ++ b) x

/-- The paragraph-accumulation step of `_chunkText`: accumulate paragraphs
until the next would exceed `MAX_CHUNK_LENGTH`, then push the trimmed chunk
and seed the next one with the last `CHUNK_OVERLAP / 5` words. -/
def chunkPara (st : List String × String) (para : String) : List String × String :=
  let chunks := st.1
  let current := st.2
  if MAX_CHUNK_LENGTH < (current ++ "\n\n" ++ para).length && 0 < current.length then
    let words := splitWs current
    let overlapWords := words.drop (words.length - CHUNK_OVERLAP / 5)
    (chunks ++ [jsTrim current], joinSpace overlapWords ++ "\n\n" ++ para)
  else
    (chunks, if current == "" then para else current ++ "\n\n" ++ para)

/-- The sentence-accumulation step of the oversize-chunk pass. -/
def chunkSent (st2 : List String × String) (sent : String) : List String × String :=
  if MAX_CHUNK_LENGTH < (st2.2 ++ sent).length && !(st2.2 == "") then
    (st2.1 ++ [jsTrim st2.2], sent)
  else (st2.1, st2.2 ++ sent)

/-- The oversize-chunk pass of `_chunkText`: split a chunk longer than
`2 * MAX_CHUNK_LENGTH` on sentence matches, keep other chunks as they are. -/
def chunkBig (acc : List String) (chunk : String) : List String :=
  if MAX_CHUNK_LENGTH * 2 < chunk.length then
    let ms := (sentStart chunk.toList).map (fun l => String.mk l)
    let sentences := if ms.isEmpty then [chunk] else ms
    let st := sentences.foldl chunkSent (acc, "")
    if jsTrim st.2 == "" then st.1 else st.1 ++ [jsTrim st.2]
  else acc ++ [chunk]

/-- `_chunkText(text)`: the paragraph pass, the oversize-chunk pass, and the
fall-back to the whole text when nothing was produced. -/
def chunkText (text : String) : List String :=
  let paragraphs := (splitParasAux text.toList []).map (fun l => String.mk l)
  let step1 := paragraphs.foldl chunkPara ([], "")
  let chunks1 := if jsTrim step1.2 == "" then step1.1 else step1.1 ++ [jsTrim step1.2]
  let final := chunks1.foldl chunkBig []
  if 0 < final.length then final else [text]

/-- The id of the `i`-th chunk record: the parent id for the first chunk,
`parentId_chunk_i` afterwards. -/
def chunkId (parentId : String) (i : Nat) : String :=
  if i = 0 then parentId else parentId ++ "_chunk_" ++ toString i

/-- The loop of `_addChunked`: store each chunk through the non-chunking
`add` path (`autoChunk: false`, chunk bookkeeping metadata, the parent
summary only on the first chunk), and link every later chunk to the first
with a `chunk` edge of strength 1; a thrown insert/link error aborts the
loop, keeping the chunks already stored. -/
noncomputable def addChunkLoop (cfg : EngineConfig) (now : Int) (req : AddReq)
    (parentId : String) (total : Nat) :
    List String → Nat → Nat → EngineState → (Except SqlError Nat) × EngineState
  | [], _, results, s => (.ok results, s)
  | chunk :: rest, i, results, s =>
    let cid := chunkId parentId i
    let req2 : AddReq :=
      { content := chunk, containerTags := req.containerTags, customId := some cid,
        metadata := jsSpread req.metadata
          [("_chunkIndex", toString i), ("_chunkTotal", toString total),
           ("_parentId", parentId)],
        memoryType := req.memoryType, importance := req.importance, source := req.source,
        summary := if i = 0 then req.summary else none,
        autoChunk := false, deduplicate := req.deduplicate }
    match addCore cfg parentId now req2 s with
    | (.error e, s1) => (.error e, s1)
    | (.ok _, s1) =>
      if 0 < i then
        match linkRun parentId cid "chunk" 1 s1 with
        | (.ok _, s2) => addChunkLoop cfg now req parentId total rest (i + 1) (results + 1) s2
        | (.error e, s2) => (.error e, s2)
      else addChunkLoop cfg now req parentId total rest (i + 1) (results + 1) s1

/-- `_addChunked`: split the content, store each chunk, and return
`{ id: parentId, chunks, tags }`. -/
noncomputable def addChunked (cfg : EngineConfig) (fresh : String) (now : Int) (req : AddReq)
    (s : EngineState) : (Except SqlError AddResult) × EngineState :=
  let chunks := chunkText req.content
  let parentId := req.customId.getD fresh
  match addChunkLoop cfg now req parentId chunks.length chunks 0 0 s with
  | (.ok n, s1) => (.ok (.chunked parentId n req.containerTags), s1)
  | (.error e, s1) => (.error e, s1)

/-- The public `add`: divert over-long content
(`content.length > MAX_CHUNK_LENGTH * 1.5` with `autoChunk`) to the chunked
path, otherwise run the dedup-or-insert core.  `fresh` stands for the
`crypto.randomUUID()` drawn when no `customId` is supplied. -/
noncomputable def add (cfg : EngineConfig) (fresh : String) (now : Int) (req : AddReq)
    (s : EngineState) : (Except SqlError AddResult) × EngineState :=
  if req.autoChunk && decide ((MAX_CHUNK_LENGTH : ℚ) * 1.5 < (req.content.length : ℚ))
  then addChunked cfg fresh now req s
  else addCore cfg fresh now req s

/-! ## C10: customId collision -/

/-- When every window row is strictly below the merge threshold, the dedup
scan finds nothing. -/
theorem firstSimilar_none (qv : List ℚ) :
    ∀ l : List Memory,
      (∀ m ∈ l, cosineSimilarity qv (m.embedding.getD []) < SIMILARITY_MERGE_THRESHOLD) →
      firstSimilar qv l = none := by
  intro l
  induction l with
  | nil => intro _; rfl
  | cons m rest ih =>
    intro h
    simp only [firstSimilar]
    rw [if_neg (not_le_of_lt (h m (List.mem_cons_self m rest)))]
    exact ih (fun m2 hm2 => h m2 (List.mem_cons_of_mem m hm2))

/-- The conditions of claim C10 under which no dedup merge occurs: no
embedding function, deduplication off, or every scanned window row below
the 0.85 similarity threshold against the new content's embedding. -/
def NoDedupMerge (cfg : EngineConfig) (req : AddReq) (s : EngineState) : Prop :=
  cfg.embedFn = none ∨ req.deduplicate = false
  ∨ (∀ ef, cfg.embedFn = some ef →
      ∀ m ∈ dupWindow req.containerTags s,
        cosineSimilarity
          (getEmbedding ef cfg.hashFn cfg.embeddingCacheMaxSize s.embeddingCache req.content).1
          (m.embedding.getD []) < SIMILARITY_MERGE_THRESHOLD)

/-- An insert via the non-dedup tail of `add` onto an already-used id fails
with the PRIMARY KEY violation and leaves the stored tables unchanged. -/
theorem addInsert_pk_error (cfg : EngineConfig) (fresh : String) (now : Int) (req : AddReq)
    (s : EngineState) (X : String) (hcid : req.customId = some X)
    (hex : X ∈ s.memories.map (·.id)) :
    (addInsert cfg fresh now req s).1 = .error .primaryKeyViolation
    ∧ (addInsert cfg fresh now req s).2.memories = s.memories
    ∧ (addInsert cfg fresh now req s).2.memTags = s.memTags
    ∧ (addInsert cfg fresh now req s).2.links = s.links := by
  have hany : (s.memories.any (fun m => m.id == req.customId.getD fresh)) = true := by
    rw [hcid]
    rcases List.mem_map.mp hex with ⟨m, hm, hid⟩
    exact List.any_eq_true.mpr ⟨m, hm, beq_iff_eq.mpr hid⟩
  cases hef : cfg.embedFn with
  | none =>
    simp only [addInsert, hef, insertMemoryRun]
    rw [if_pos hany]
    exact ⟨rfl, rfl, rfl, rfl⟩
  | some ef =>
    simp only [addInsert, hef, insertMemoryRun]
    rw [if_pos hany]
    exact ⟨rfl, rfl, rfl, rfl⟩

/-- C10: an `add` with a `customId` equal to an existing row's id (live or
soft-deleted), not diverted to chunking and with no dedup merge, fails with
the PRIMARY KEY constraint error and leaves the stored record, tag, and
link tables unchanged (only the in-memory embedding cache may have been
touched). -/
theorem C10_custom_id_collision (cfg : EngineConfig) (fresh : String) (now : Int)
    (req : AddReq) (s : EngineState) (X : String)
    (hcid : req.customId = some X)
    (hex : X ∈ s.memories.map (·.id))
    (hnochunk : ¬(req.autoChunk = true
      ∧ (MAX_CHUNK_LENGTH : ℚ) * 1.5 < (req.content.length : ℚ)))
    (hnm : NoDedupMerge cfg req s) :
    (add cfg fresh now req s).1 = .error .primaryKeyViolation
    ∧ (add cfg fresh now req s).2.memories = s.memories
    ∧ (add cfg fresh now req s).2.memTags = s.memTags
    ∧ (add cfg fresh now req s).2.links = s.links := by
  have hguard : ¬((req.autoChunk
      && decide ((MAX_CHUNK_LENGTH : ℚ) * 1.5 < (req.content.length : ℚ))) = true) := by
    simp only [Bool.and_eq_true, decide_eq_true_eq]
    exact hnochunk
  rw [add, if_neg hguard]
  cases hef : cfg.embedFn with
  | none =>
    simp only [addCore, hef]
    exact addInsert_pk_error cfg fresh now req s X hcid hex
  | some ef =>
    by_cases hded : req.deduplicate = true
    · rcases hnm with hnm | hnm | hnm
      · rw [hef] at hnm
        exact absurd hnm (by simp)
      · rw [hded] at hnm
        exact absurd hnm (by simp)
      · simp only [addCore, hef, hded, if_true]
        have hfd : findDuplicate
            (getEmbedding ef cfg.hashFn cfg.embeddingCacheMaxSize s.embeddingCache req.content).1
            req.containerTags
            { s with embeddingCache :=
                (getEmbedding ef cfg.hashFn cfg.embeddingCacheMaxSize s.embeddingCache
                  req.content).2 } = none :=
          firstSimilar_none _ _ (hnm ef hef)
        rw [hfd]
        exact addInsert_pk_error cfg fresh now req _ X hcid hex
    · have hded' : req.deduplicate = false := by
        cases h : req.deduplicate
        · rfl
        · exact absurd h hded
      simp only [addCore, hef, hded', if_false]
      exact addInsert_pk_error cfg fresh now req s X hcid hex

def c10Req : AddReq :=
  { content := "hello again", customId := some "X", autoChunk := false }

theorem C10_witness :
    (c10Req.customId = some "X" ∧ "X" ∈ c4State.memories.map (·.id)
      ∧ ¬(c10Req.autoChunk = true
          ∧ (MAX_CHUNK_LENGTH : ℚ) * 1.5 < ((c10Req.content.length : ℚ)))
      ∧ NoDedupMerge c5Cfg c10Req c4State)
    ∧ ((add c5Cfg "f" 7 c10Req c4State).1 = .error .primaryKeyViolation
      ∧ (add c5Cfg "f" 7 c10Req c4State).2.memories = c4State.memories
      ∧ (add c5Cfg "f" 7 c10Req c4State).2.memTags = c4State.memTags
      ∧ (add c5Cfg "f" 7 c10Req c4State).2.links = c4State.links) :=
  ⟨⟨rfl, by decide, by simp [c10Req], Or.inl rfl⟩,
    C10_custom_id_collision c5Cfg "f" 7 c10Req c4State "X" rfl (by decide) (by simp [c10Req])
      (Or.inl rfl)⟩

/-! ## C3: chunking -/

theorem dropWhile_false_of_all (p : α → Bool) :
    ∀ l : List α, (∀ c ∈ l, p c = false) → l.dropWhile p = l := by
  intro l
  induction l with
  | nil => intro _; rfl
  | cons c rest ih =>
    intro h
    rw [List.dropWhile_cons, if_neg (by simp [h c (List.mem_cons_self c rest)])]

/-- A string without whitespace characters trims to itself. -/
theorem jsTrim_id (s : String) (h : ∀ c ∈ s.toList, jsIsSpace c = false) :
    jsTrim s = s := by
  simp only [jsTrim]
  rw [dropWhile_false_of_all jsIsSpace s.toList h,
    dropWhile_false_of_all jsIsSpace s.toList.reverse
      (fun c hc => h c (List.mem_reverse.mp hc)),
    List.reverse_reverse]
  rfl

/-- A character list without newlines is a single paragraph. -/
theorem splitParasAux_no_newline :
    ∀ (l : List Char) (acc : List Char), (∀ c ∈ l, c ≠ '\n') →
      splitParasAux l acc = [acc.reverse ++ l] := by
  intro l
  induction l with
  | nil => intro acc _; simp [splitParasAux]
  | cons c rest ih =>
    intro acc h
    simp only [splitParasAux]
    rw [if_neg (h c (List.mem_cons_self c rest))]
    rw [ih (c :: acc) (fun c2 hc2 => h c2 (List.mem_cons_of_mem c hc2))]
    simp

theorem sentBody_no_term :
    ∀ (l : List Char) (acc : List Char), (∀ c ∈ l, isTerm c = false) →
      sentBody l acc = [] := by
  intro l
  induction l with
  | nil => intro acc _; rfl
  | cons c rest ih =>
    intro acc h
    simp only [sentBody]
    rw [if_neg (by simp [h c (List.mem_cons_self c rest)])]
    exact ih (c :: acc) (fun c2 hc2 => h c2 (List.mem_cons_of_mem c hc2))

/-- A character list without sentence terminators has no sentence matches. -/
theorem sentStart_no_term (l : List Char) (h : ∀ c ∈ l, isTerm c = false) :
    sentStart l = [] := by
  cases l with
  | nil => rfl
  | cons c rest =>
    simp only [sentStart]
    rw [if_neg (by simp [h c (List.mem_cons_self c rest)])]
    exact sentBody_no_term rest [c] (fun c2 hc2 => h c2 (List.mem_cons_of_mem c hc2))

/-- `_chunkText` on a single over-long paragraph with no sentence
terminators (and no whitespace) returns that paragraph as the one chunk —
the sentence fallback finds nothing to split. -/
theorem chunkPara_empty (p : String) : chunkPara ([], "") p = ([], p) := by
  simp [chunkPara]

theorem chunkSent_empty (acc : List String) (s : String) :
    chunkSent (acc, "") s = (acc, s) := by
  simp [chunkSent]

/-- The oversize pass keeps a big chunk whole when the sentence regex finds
no match and the chunk trims to itself. -/
theorem chunkBig_no_sent (acc : List String) (c : String)
    (hnt : ∀ ch ∈ c.toList, isTerm ch = false)
    (hns : ∀ ch ∈ c.toList, jsIsSpace ch = false)
    (hne : c ≠ "") :
    chunkBig acc c = acc ++ [c] := by
  have htrim : jsTrim c = c := jsTrim_id c hns
  have hbeq : (c == "") = false := beq_eq_false_iff_ne.mpr hne
  by_cases hbig : MAX_CHUNK_LENGTH * 2 < c.length
  · rw [chunkBig, if_pos (by exact_mod_cast hbig)]
    rw [sentStart_no_term c.toList hnt]
    simp only [List.map_nil, List.isEmpty_nil, if_true, List.foldl_cons, List.foldl_nil,
      chunkSent_empty, htrim, hbeq, Bool.false_eq_true, if_false]
  · rw [chunkBig, if_neg (by exact_mod_cast hbig)]

theorem chunkText_single_para (c : String)
    (hnn : ∀ ch ∈ c.toList, ch ≠ '\n')
    (hnt : ∀ ch ∈ c.toList, isTerm ch = false)
    (hns : ∀ ch ∈ c.toList, jsIsSpace ch = false)
    (hne : c ≠ "")
    (hbig : MAX_CHUNK_LENGTH * 2 < c.length) :
    chunkText c = [c] := by
  have hmk : String.mk c.toList = c := rfl
  have htrim : jsTrim c = c := jsTrim_id c hns
  have hbeq : (c == "") = false := beq_eq_false_iff_ne.mpr hne
  rw [chunkText]
  rw [splitParasAux_no_newline c.toList [] hnn]
  simp only [List.reverse_nil, List.nil_append, List.map_cons, List.map_nil, hmk,
    List.foldl_cons, List.foldl_nil, chunkPara_empty, htrim, hbeq, Bool.false_eq_true,
    if_false, chunkBig_no_sent [] c hnt hns hne, List.length_cons, List.length_nil,
    Nat.lt_irrefl, Nat.zero_lt_succ, if_true]

/-- The memories row inserted for the `i`-th chunk of a chunked add (no
embedding provider configured). -/
def chunkRow (req : AddReq) (pid : String) (total i : Nat) (chunk : String) (now : Int) :
    Memory :=
  { id := chunkId pid i, content := chunk,
    summary := if i = 0 then req.summary else none,
    memory_type := req.memoryType, importance := req.importance, source := req.source,
    metadata := jsSpread req.metadata
      [("_chunkIndex", toString i), ("_chunkTotal", toString total), ("_parentId", pid)],
    embedding := none, access_count := 0, last_accessed_at := none, is_deleted := false,
    created_at := now, updated_at := now }

theorem chunkRow_id (req : AddReq) (pid : String) (total i : Nat) (chunk : String)
    (now : Int) : (chunkRow req pid total i chunk now).id = chunkId pid i := rfl

/-- The engine state after one iteration of the `_addChunked` loop: the
chunk row and its tags are inserted, and for a positive index the
`chunk`-relation edge from the parent is stored. -/
def chunkStepState (req : AddReq) (pid : String) (total i : Nat) (c : String) (now : Int)
    (s : EngineState) : EngineState :=
  let st := req.containerTags.foldl (fun acc t => insertTagRun (chunkId pid i) t acc)
    { s with memories := s.memories ++ [chunkRow req pid total i c now] }
  if 0 < i then
    { st with links :=
        (st.links.filter (fun l => !(l.source_id == pid && l.target_id == chunkId pid i)))
          ++ [⟨pid, chunkId pid i, "chunk", 1⟩] }
  else st

theorem ite_len_ne_nil (l : List String) (text : String) :
    (if 0 < l.length then l else [text]) ≠ [] := by
  by_cases h : 0 < l.length
  · rw [if_pos h]; exact List.length_pos.mp h
  · rw [if_neg h]; simp

theorem chunkText_ne_nil (text : String) : chunkText text ≠ [] :=
  ite_len_ne_nil _ text

theorem insertTagRun_memories (id t : String) (s : EngineState) :
    (insertTagRun id t s).memories = s.memories := by
  rw [insertTagRun]; split <;> rfl

theorem insertTagRun_links (id t : String) (s : EngineState) :
    (insertTagRun id t s).links = s.links := by
  rw [insertTagRun]; split <;> rfl

theorem insertTagRun_memTags_mono (id t : String) (s : EngineState) (p : String × String)
    (h : p ∈ s.memTags) : p ∈ (insertTagRun id t s).memTags := by
  rw [insertTagRun]; split
  · exact h
  · exact List.mem_append_left _ h

theorem insertTagRun_memTags_self (id t : String) (s : EngineState) :
    (id, t) ∈ (insertTagRun id t s).memTags := by
  rw [insertTagRun]; split
  next h => exact List.mem_of_elem_eq_true h
  next h => exact List.mem_append_right _ (List.mem_singleton_self _)

theorem tagFold_memories (id : String) :
    ∀ (tags : List String) (s : EngineState),
      (tags.foldl (fun acc t => insertTagRun id t acc) s).memories = s.memories := by
  intro tags
  induction tags with
  | nil => intro s; rfl
  | cons t rest ih =>
    intro s
    rw [List.foldl_cons, ih, insertTagRun_memories]

theorem tagFold_links (id : String) :
    ∀ (tags : List String) (s : EngineState),
      (tags.foldl (fun acc t => insertTagRun id t acc) s).links = s.links := by
  intro tags
  induction tags with
  | nil => intro s; rfl
  | cons t rest ih =>
    intro s
    rw [List.foldl_cons, ih, insertTagRun_links]

theorem tagFold_memTags_mono (id : String) :
    ∀ (tags : List String) (s : EngineState) (p : String × String),
      p ∈ s.memTags → p ∈ (tags.foldl (fun acc t => insertTagRun id t acc) s).memTags := by
  intro tags
  induction tags with
  | nil => intro s p h; exact h
  | cons t rest ih =>
    intro s p h
    rw [List.foldl_cons]
    exact ih _ p (insertTagRun_memTags_mono id t s p h)

theorem tagFold_memTags_self (id : String) :
    ∀ (tags : List String) (s : EngineState) (t : String), t ∈ tags →
      (id, t) ∈ (tags.foldl (fun acc t2 => insertTagRun id t2 acc) s).memTags := by
  intro tags
  induction tags with
  | nil => intro s t ht; cases ht
  | cons t0 rest ih =>
    intro s t ht
    rw [List.foldl_cons]
    rcases List.mem_cons.mp ht with h | h
    · subst h
      exact tagFold_memTags_mono id rest _ _ (insertTagRun_memTags_self id t s)
    · exact ih _ t h

theorem addCore_none (cfg : EngineConfig) (fresh : String) (now : Int) (req : AddReq)
    (s : EngineState) (hef : cfg.embedFn = none) :
    addCore cfg fresh now req s = addInsert cfg fresh now req s := by
  simp only [addCore, hef]

/-- `addInsert` on an id not yet present, without an embedding provider:
it inserts the row and its tag associations. -/
theorem addInsert_fresh (cfg : EngineConfig) (fresh : String) (now : Int) (req : AddReq)
    (s : EngineState) (id : String) (hid : req.customId = some id) (hef : cfg.embedFn = none)
    (hfr : id ∉ s.memories.map (·.id)) :
    addInsert cfg fresh now req s =
      (.ok (.added id req.content req.summary req.containerTags req.memoryType
          req.importance),
        req.containerTags.foldl (fun acc t => insertTagRun id t acc)
          { s with memories := s.memories ++
              [{ id := id, content := req.content, summary := req.summary,
                 memory_type := req.memoryType, importance := req.importance,
                 source := req.source, metadata := req.metadata, embedding := none,
                 access_count := 0, last_accessed_at := none, is_deleted := false,
                 created_at := now, updated_at := now }] }) := by
  have hget : req.customId.getD fresh = id := by rw [hid]; rfl
  have hany : (s.memories.any (fun m => m.id == id)) = false := by
    rw [List.any_eq_false]
    intro m hm hbeq
    have h2 : m.id = id := by simpa using hbeq
    exact hfr (h2 ▸ List.mem_map_of_mem (·.id) hm)
  simp only [addInsert, hef, insertMemoryRun, hget]
  rw [hany]
  rfl


theorem chunkStepState_memories (req : AddReq) (pid : String) (total i : Nat) (c : String)
    (now : Int) (s : EngineState) :
    (chunkStepState req pid total i c now s).memories
      = s.memories ++ [chunkRow req pid total i c now] := by
  simp only [chunkStepState]
  split
  · exact tagFold_memories _ _ _
  · exact tagFold_memories _ _ _

theorem chunkStepState_ids (req : AddReq) (pid : String) (total i : Nat) (c : String)
    (now : Int) (s : EngineState) :
    (chunkStepState req pid total i c now s).memories.map (·.id)
      = s.memories.map (·.id) ++ [chunkId pid i] := by
  rw [chunkStepState_memories, List.map_append]
  rfl

theorem chunkStepState_memTags_mono (req : AddReq) (pid : String) (total i : Nat)
    (c : String) (now : Int) (s : EngineState) (p : String × String) (h : p ∈ s.memTags) :
    p ∈ (chunkStepState req pid total i c now s).memTags := by
  simp only [chunkStepState]
  split
  · exact tagFold_memTags_mono _ _ _ _ h
  · exact tagFold_memTags_mono _ _ _ _ h

theorem chunkStepState_memTags_self (req : AddReq) (pid : String) (total i : Nat)
    (c : String) (now : Int) (s : EngineState) (t : String) (ht : t ∈ req.containerTags) :
    (chunkId pid i, t) ∈ (chunkStepState req pid total i c now s).memTags := by
  simp only [chunkStepState]
  split
  · exact tagFold_memTags_self _ _ _ t ht
  · exact tagFold_memTags_self _ _ _ t ht

theorem chunkStepState_links_mono (req : AddReq) (pid : String) (total i : Nat)
    (c : String) (now : Int) (s : EngineState) (l : LinkRow) (h : l ∈ s.links)
    (hne : l.target_id ≠ chunkId pid i) :
    l ∈ (chunkStepState req pid total i c now s).links := by
  simp only [chunkStepState]
  split
  · apply List.mem_append_left
    apply List.mem_filter.mpr
    refine ⟨?_, ?_⟩
    · rw [tagFold_links]
      exact h
    · simp [hne]
  · rw [tagFold_links]
    exact h

theorem chunkStepState_link_self (req : AddReq) (pid : String) (total i : Nat)
    (c : String) (now : Int) (s : EngineState) (hi : 1 ≤ i) :
    (⟨pid, chunkId pid i, "chunk", (1 : ℚ)⟩ : LinkRow)
      ∈ (chunkStepState req pid total i c now s).links := by
  simp only [chunkStepState]
  rw [if_pos (show 0 < i from hi)]
  exact List.mem_append_right _ (List.mem_singleton_self _)

theorem chunkStepState_pid_mem (req : AddReq) (pid : String) (total i : Nat) (c : String)
    (now : Int) (s : EngineState) (hp : 1 ≤ i → pid ∈ s.memories.map (·.id)) :
    pid ∈ (chunkStepState req pid total i c now s).memories.map (·.id) := by
  rw [chunkStepState_ids]
  rcases Nat.eq_zero_or_pos i with hi | hi
  · subst hi
    apply List.mem_append_right
    simp [chunkId]
  · exact List.mem_append_left _ (hp hi)

/-- One iteration of the `_addChunked` loop on a fresh chunk id: the chunk
row, its tags, and (for a positive index) the parent link are stored, and
the loop continues on the remaining chunks. -/
theorem addChunkLoop_step (cfg : EngineConfig) (now : Int) (req : AddReq)
    (pid : String) (total : Nat) (hef : cfg.embedFn = none)
    (c : String) (rest : List String) (i results : Nat) (s : EngineState)
    (hfr : chunkId pid i ∉ s.memories.map (·.id))
    (hp : 1 ≤ i → pid ∈ s.memories.map (·.id)) :
    addChunkLoop cfg now req pid total (c :: rest) i results s
      = addChunkLoop cfg now req pid total rest (i + 1) (results + 1)
          (chunkStepState req pid total i c now s) := by
  rcases Nat.eq_zero_or_pos i with hi | hi
  · subst hi
    have hcore0 : addCore cfg pid now
        { content := c, containerTags := req.containerTags, customId := some (chunkId pid 0),
          metadata := jsSpread req.metadata
            [("_chunkIndex", toString 0), ("_chunkTotal", toString total),
             ("_parentId", pid)],
          memoryType := req.memoryType, importance := req.importance, source := req.source,
          summary := req.summary, autoChunk := false, deduplicate := req.deduplicate } s
        = (.ok (.added (chunkId pid 0) c req.summary req.containerTags req.memoryType
              req.importance),
            req.containerTags.foldl (fun acc t => insertTagRun (chunkId pid 0) t acc)
              { s with memories := s.memories ++ [chunkRow req pid total 0 c now] }) := by
      rw [addCore_none cfg pid now _ s hef,
        addInsert_fresh cfg pid now _ s (chunkId pid 0) rfl hef hfr]
      rfl
    have hss : chunkStepState req pid total 0 c now s
        = req.containerTags.foldl (fun acc t => insertTagRun (chunkId pid 0) t acc)
            { s with memories := s.memories ++ [chunkRow req pid total 0 c now] } := by
      simp only [chunkStepState]
      rw [if_neg (lt_irrefl 0)]
    rw [hss]
    simp only [addChunkLoop, if_true]
    rw [hcore0]
    dsimp only
    rw [if_neg (lt_irrefl 0)]
  · obtain ⟨k, rfl⟩ : ∃ k, i = k + 1 := ⟨i - 1, by omega⟩
    have hcore : addCore cfg pid now
        { content := c, containerTags := req.containerTags,
          customId := some (chunkId pid (k + 1)),
          metadata := jsSpread req.metadata
            [("_chunkIndex", toString (k + 1)), ("_chunkTotal", toString total),
             ("_parentId", pid)],
          memoryType := req.memoryType, importance := req.importance, source := req.source,
          summary := if k + 1 = 0 then req.summary else none,
          autoChunk := false, deduplicate := req.deduplicate } s
        = (.ok (.added (chunkId pid (k + 1)) c none req.containerTags req.memoryType
              req.importance),
            req.containerTags.foldl (fun acc t => insertTagRun (chunkId pid (k + 1)) t acc)
              { s with memories :=
                  s.memories ++ [chunkRow req pid total (k + 1) c now] }) := by
      rw [addCore_none cfg pid now _ s hef,
        addInsert_fresh cfg pid now _ s (chunkId pid (k + 1)) rfl hef hfr]
      rfl
    have hmems : (req.containerTags.foldl
        (fun acc t => insertTagRun (chunkId pid (k + 1)) t acc)
        { s with memories := s.memories ++ [chunkRow req pid total (k + 1) c now] }).memories
        = s.memories ++ [chunkRow req pid total (k + 1) c now] := tagFold_memories _ _ _
    have hany1 : ((req.containerTags.foldl
        (fun acc t => insertTagRun (chunkId pid (k + 1)) t acc)
        { s with memories :=
            s.memories ++ [chunkRow req pid total (k + 1) c now] }).memories.any
          (fun m => m.id == pid)) = true := by
      rw [hmems, List.any_eq_true]
      rcases List.mem_map.mp (hp hi) with ⟨m, hm, hid2⟩
      exact ⟨m, List.mem_append_left _ hm, beq_iff_eq.mpr hid2⟩
    have hany2 : ((req.containerTags.foldl
        (fun acc t => insertTagRun (chunkId pid (k + 1)) t acc)
        { s with memories :=
            s.memories ++ [chunkRow req pid total (k + 1) c now] }).memories.any
          (fun m => m.id == chunkId pid (k + 1))) = true := by
      rw [hmems, List.any_eq_true]
      exact ⟨chunkRow req pid total (k + 1) c now,
        List.mem_append_right _ (List.mem_singleton_self _), beq_iff_eq.mpr rfl⟩
    have hlink : linkRun pid (chunkId pid (k + 1)) "chunk" 1
        (req.containerTags.foldl (fun acc t => insertTagRun (chunkId pid (k + 1)) t acc)
          { s with memories := s.memories ++ [chunkRow req pid total (k + 1) c now] })
        = (.ok ⟨true⟩, chunkStepState req pid total (k + 1) c now s) := by
      rw [linkRun, if_pos (by simp [hany1, hany2])]
      simp only [chunkStepState]
      rw [if_pos (Nat.succ_pos k)]
    have hstep : addChunkLoop cfg now req pid total (c :: rest) (k + 1) results s
        = match linkRun pid (chunkId pid (k + 1)) "chunk" 1
            (req.containerTags.foldl
              (fun acc t => insertTagRun (chunkId pid (k + 1)) t acc)
              { s with memories :=
                  s.memories ++ [chunkRow req pid total (k + 1) c now] }) with
          | (.ok _, s2) =>
            addChunkLoop cfg now req pid total rest (k + 1 + 1) (results + 1) s2
          | (.error e, s2) => (.error e, s2) := by
      simp only [addChunkLoop, if_false]
      rw [hcore]
      dsimp only
      rw [if_pos (Nat.succ_pos k)]
    rw [hstep, hlink]

/-- The full `_addChunked` insert loop from an arbitrary start index, on
fresh and pairwise-distinct chunk ids: it succeeds, appends exactly one row
per chunk (with the request's tags, type and importance via `chunkRow`),
preserves the existing tables, and stores a parent link for every chunk of
positive index. -/
theorem addChunkLoop_spec (cfg : EngineConfig) (now : Int) (req : AddReq)
    (pid : String) (total : Nat) (hef : cfg.embedFn = none) :
    ∀ (chunks : List String) (i results : Nat) (s : EngineState),
      (∀ n, i ≤ n → n < i + chunks.length → chunkId pid n ∉ s.memories.map (·.id)) →
      (∀ n k, i ≤ n → n < i + chunks.length → i ≤ k → k < i + chunks.length →
        chunkId pid n = chunkId pid k → n = k) →
      (1 ≤ i → pid ∈ s.memories.map (·.id)) →
      (addChunkLoop cfg now req pid total chunks i results s).1 = .ok (results + chunks.length)
      ∧ (addChunkLoop cfg now req pid total chunks i results s).2.memories.map (·.id)
          = s.memories.map (·.id)
            ++ (List.range chunks.length).map (fun j => chunkId pid (i + j))
      ∧ (∀ m ∈ s.memories,
          m ∈ (addChunkLoop cfg now req pid total chunks i results s).2.memories)
      ∧ (∀ p ∈ s.memTags,
          p ∈ (addChunkLoop cfg now req pid total chunks i results s).2.memTags)
      ∧ (∀ l ∈ s.links, (∀ n, i ≤ n → n < i + chunks.length → l.target_id ≠ chunkId pid n) →
          l ∈ (addChunkLoop cfg now req pid total chunks i results s).2.links)
      ∧ (∀ j (hj : j < chunks.length),
          chunkRow req pid total (i + j) (chunks.get ⟨j, hj⟩) now
            ∈ (addChunkLoop cfg now req pid total chunks i results s).2.memories)
      ∧ (∀ n, i ≤ n → n < i + chunks.length → ∀ t ∈ req.containerTags,
          (chunkId pid n, t)
            ∈ (addChunkLoop cfg now req pid total chunks i results s).2.memTags)
      ∧ (∀ n, 1 ≤ n → i ≤ n → n < i + chunks.length →
          (⟨pid, chunkId pid n, "chunk", (1 : ℚ)⟩ : LinkRow)
            ∈ (addChunkLoop cfg now req pid total chunks i results s).2.links) := by
  intro chunks
  induction chunks with
  | nil =>
    intro i results s _ _ _
    simp only [addChunkLoop]
    refine ⟨rfl, by simp, fun m hm => hm, fun p hp => hp, fun l hl _ => hl, ?_, ?_, ?_⟩
    · intro j hj
      exact absurd hj (by simp)
    · intro n hn1 hn2
      exact absurd hn2 (by simp; omega)
    · intro n _ hn1 hn2
      exact absurd hn2 (by simp; omega)
  | cons c rest ih =>
    intro i results s hfresh hinj hpid
    simp only [List.length_cons] at hfresh hinj ⊢
    have hfr0 : chunkId pid i ∉ s.memories.map (·.id) :=
      hfresh i (le_refl i) (by omega)
    rw [addChunkLoop_step cfg now req pid total hef c rest i results s hfr0 hpid]
    set s1 := chunkStepState req pid total i c now s with hs1
    have hsm : s1.memories = s.memories ++ [chunkRow req pid total i c now] := by
      rw [hs1]; exact chunkStepState_memories req pid total i c now s
    have hids1 : s1.memories.map (·.id) = s.memories.map (·.id) ++ [chunkId pid i] := by
      rw [hs1]; exact chunkStepState_ids req pid total i c now s
    have hfresh2 : ∀ n, i + 1 ≤ n → n < (i + 1) + rest.length →
        chunkId pid n ∉ s1.memories.map (·.id) := by
      intro n hn1 hn2
      rw [hids1]
      intro hmem
      rcases List.mem_append.mp hmem with h | h
      · exact hfresh n (by omega) (by omega) h
      · have heq : chunkId pid n = chunkId pid i := by simpa using h
        have := hinj n i (by omega) (by omega) (le_refl i) (by omega) heq
        omega
    have hinj2 : ∀ n k, i + 1 ≤ n → n < (i + 1) + rest.length → i + 1 ≤ k →
        k < (i + 1) + rest.length → chunkId pid n = chunkId pid k → n = k := by
      intro n k h1 h2 h3 h4 h5
      exact hinj n k (by omega) (by omega) (by omega) (by omega) h5
    have hpid2 : 1 ≤ i + 1 → pid ∈ s1.memories.map (·.id) := fun _ => by
      rw [hs1]; exact chunkStepState_pid_mem req pid total i c now s hpid
    obtain ⟨ih1, ih2, ih3, ih4, ih5, ih6, ih7, ih8⟩ :=
      ih (i + 1) (results + 1) s1 hfresh2 hinj2 hpid2
    refine ⟨?_, ?_, ?_, ?_, ?_, ?_, ?_, ?_⟩
    · rw [ih1]
      congr 1
      omega
    · rw [ih2, hids1, List.append_assoc]
      congr 1
      rw [List.singleton_append, List.range_succ_eq_map, List.map_cons, List.map_map]
      have hhead : chunkId pid (i + 0) = chunkId pid i := by simp
      rw [hhead]
      have htail : List.map ((fun j => chunkId pid (i + j)) ∘ Nat.succ) (List.range rest.length)
          = List.map (fun j => chunkId pid (i + 1 + j)) (List.range rest.length) :=
        List.map_congr_left (fun j _ => by
          show chunkId pid (i + (j + 1)) = chunkId pid (i + 1 + j)
          congr 1
          omega)
      rw [htail]
    · intro m hm
      exact ih3 m (by rw [hsm]; exact List.mem_append_left _ hm)
    · intro p hp
      exact ih4 p (by
        rw [hs1]; exact chunkStepState_memTags_mono req pid total i c now s p hp)
    · intro l hl hcond
      exact ih5 l
        (by
          rw [hs1]
          exact chunkStepState_links_mono req pid total i c now s l hl
            (hcond i (le_refl i) (by omega)))
        (fun n hn1 hn2 => hcond n (by omega) (by omega))
    · intro j hj
      cases j with
      | zero =>
        have hrow : chunkRow req pid total i c now ∈ s1.memories := by
          rw [hsm]
          exact List.mem_append_right _ (List.mem_singleton_self _)
        have hfin := ih3 _ hrow
        simpa using hfin
      | succ j2 =>
        have hj2 : j2 < rest.length := by omega
        have hfin := ih6 j2 hj2
        have harg : i + 1 + j2 = i + (j2 + 1) := by omega
        rw [harg] at hfin
        simpa using hfin
    · intro n hn1 hn2 t ht
      rcases eq_or_lt_of_le hn1 with hn | hn
      · exact ih4 _ (by
          rw [← hn, hs1]
          exact chunkStepState_memTags_self req pid total i c now s t ht)
      · exact ih7 n (by omega) (by omega) t ht
    · intro n h1 h2 h3
      rcases eq_or_lt_of_le h2 with hn | hn
      · refine ih5 _ (by
          rw [← hn, hs1]
          exact chunkStepState_link_self req pid total i c now s (by omega)) ?_
        intro n2 hn1 hn2 hEq
        have heq2 : chunkId pid n = chunkId pid n2 := hEq
        have := hinj n n2 (by omega) (by omega) (by omega) (by omega) heq2
        omega
      · exact ih8 n h1 (by omega) (by omega)

/-- `add` under the auto-chunk guard returns the chunked result built from
the loop's count and final state. -/
theorem add_chunked_eq (cfg : EngineConfig) (fresh : String) (now : Int) (req : AddReq)
    (s : EngineState) (pid : String) (n : Nat)
    (hpid : req.customId.getD fresh = pid)
    (hguard : (req.autoChunk
      && decide ((MAX_CHUNK_LENGTH : ℚ) * 1.5 < (req.content.length : ℚ))) = true)
    (hn : (addChunkLoop cfg now req pid (chunkText req.content).length
        (chunkText req.content) 0 0 s).1 = .ok n) :
    add cfg fresh now req s
      = (.ok (.chunked pid n req.containerTags),
        (addChunkLoop cfg now req pid (chunkText req.content).length
          (chunkText req.content) 0 0 s).2) := by
  rw [add, if_pos hguard]
  simp only [addChunked, hpid]
  rcases hloop : addChunkLoop cfg now req pid (chunkText req.content).length
      (chunkText req.content) 0 0 s with ⟨r1, s2⟩
  rw [hloop] at hn
  obtain rfl : r1 = .ok n := hn
  rfl

/-- The conclusion of the amended chunking claim: the add reports
`{ id: parentId, chunks: n, tags }` with `n ≥ 1` chunk records, the stored
ids are exactly the chunk ids, each chunk row carries the request's tags,
type and importance, and every chunk of positive index is linked to the
first by a `chunk` edge of strength 1. -/
def C3Statement (cfg : EngineConfig) (fresh : String) (now : Int) (req : AddReq)
    (s : EngineState) (pid : String) : Prop :=
  (add cfg fresh now req s).1
      = .ok (.chunked pid (chunkText req.content).length req.containerTags)
  ∧ 1 ≤ (chunkText req.content).length
  ∧ (add cfg fresh now req s).2.memories.map (·.id)
      = s.memories.map (·.id)
        ++ (List.range (chunkText req.content).length).map (chunkId pid)
  ∧ (∀ j (hj : j < (chunkText req.content).length),
      chunkRow req pid (chunkText req.content).length j
          ((chunkText req.content).get ⟨j, hj⟩) now
        ∈ (add cfg fresh now req s).2.memories
      ∧ ∀ t ∈ req.containerTags,
          (chunkId pid j, t) ∈ (add cfg fresh now req s).2.memTags)
  ∧ (∀ j, 1 ≤ j → j < (chunkText req.content).length →
      (⟨pid, chunkId pid j, "chunk", (1 : ℚ)⟩ : LinkRow)
        ∈ (add cfg fresh now req s).2.links)

/-- C3: an `add` with `autoChunk` and content longer than
`MAX_CHUNK_LENGTH * 1.5` (2250) characters, with no embedding provider and
chunk ids fresh and distinct, stores the `_chunkText` chunks as records
that all carry the request's tags, type and importance, and links every
non-first chunk to the first with a `chunk` edge of strength 1.0 — but the
number of chunks is only guaranteed to be at least 1, not at least 2, and a
chunk's length is not bounded by about `2 * MAX_CHUNK_LENGTH` (a single
newline-free, terminator-free paragraph is kept whole at any length). -/
theorem C3_chunked_add_amended (cfg : EngineConfig) (fresh : String) (now : Int)
    (req : AddReq) (s : EngineState) (pid : String)
    (hef : cfg.embedFn = none)
    (hpid : req.customId.getD fresh = pid)
    (hauto : req.autoChunk = true)
    (hbig : (MAX_CHUNK_LENGTH : ℚ) * 1.5 < (req.content.length : ℚ))
    (hfresh : ∀ n, n < (chunkText req.content).length →
        chunkId pid n ∉ s.memories.map (·.id))
    (hinj : ∀ n k, n < (chunkText req.content).length →
        k < (chunkText req.content).length → chunkId pid n = chunkId pid k → n = k) :
    C3Statement cfg fresh now req s pid := by
  have hguard : (req.autoChunk
      && decide ((MAX_CHUNK_LENGTH : ℚ) * 1.5 < (req.content.length : ℚ))) = true := by
    rw [hauto, decide_eq_true hbig]
    rfl
  obtain ⟨h1, h2, h3, h4, h5, h6, h7, h8⟩ :=
    addChunkLoop_spec cfg now req pid (chunkText req.content).length hef
      (chunkText req.content) 0 0 s
      (fun n _ hn2 => hfresh n (by omega))
      (fun n k _ hn2 _ hk2 h => hinj n k (by omega) (by omega) h)
      (fun h => absurd h (by omega))
  rw [Nat.zero_add] at h1
  have hadd := add_chunked_eq cfg fresh now req s pid (chunkText req.content).length
    hpid hguard h1
  unfold C3Statement
  have hres : (add cfg fresh now req s).1
      = .ok (.chunked pid (chunkText req.content).length req.containerTags) := by
    rw [hadd]
  have hstate : (add cfg fresh now req s).2
      = (addChunkLoop cfg now req pid (chunkText req.content).length
          (chunkText req.content) 0 0 s).2 := by
    rw [hadd]
  refine ⟨hres, List.length_pos.mpr (chunkText_ne_nil req.content), ?_, ?_, ?_⟩
  · rw [hstate, h2]
    have hmapeq : (List.range (chunkText req.content).length).map
        (fun j => chunkId pid (0 + j))
        = (List.range (chunkText req.content).length).map (chunkId pid) :=
      List.map_congr_left (fun j _ => by rw [Nat.zero_add])
    rw [hmapeq]
  · intro j hj
    constructor
    · have h6b := h6 j hj
      rw [Nat.zero_add] at h6b
      rw [hstate]
      exact h6b
    · intro t ht
      have h7b := h7 j (Nat.zero_le j) (by omega) t ht
      rw [hstate]
      exact h7b
  · intro j h1j h2j
    have h8b := h8 j h1j (Nat.zero_le j) (by omega)
    rw [hstate]
    exact h8b

/-- A single 3001-character paragraph: no newlines, no sentence
terminators, no whitespace. -/
def content0 : String := String.mk (List.replicate 3001 'a')

def c3Req : AddReq := { content := content0 }

theorem content0_len : content0.length = 3001 := by
  show (List.replicate 3001 'a').length = 3001
  exact List.length_replicate 3001 'a'

theorem content0_all : ∀ ch ∈ content0.toList, ch = 'a' := fun ch h =>
  List.eq_of_mem_replicate (show ch ∈ List.replicate 3001 'a' from h)

theorem content0_chunks : chunkText content0 = [content0] := by
  have hne : content0 ≠ "" := by
    intro h
    have h2 : content0.length = 0 := by rw [h]; rfl
    rw [content0_len] at h2
    exact absurd h2 (by decide)
  exact chunkText_single_para content0
    (fun ch h => by rw [content0_all ch h]; decide)
    (fun ch h => by rw [content0_all ch h]; decide)
    (fun ch h => by rw [content0_all ch h]; decide)
    hne
    (by rw [content0_len]; decide)

theorem C3_witness :
    (c5Cfg.embedFn = none
      ∧ c3Req.customId.getD "p" = "p"
      ∧ c3Req.autoChunk = true
      ∧ (MAX_CHUNK_LENGTH : ℚ) * 1.5 < (c3Req.content.length : ℚ)
      ∧ (∀ n, n < (chunkText c3Req.content).length →
          chunkId "p" n ∉ emptyState.memories.map (·.id))
      ∧ (∀ n k, n < (chunkText c3Req.content).length →
          k < (chunkText c3Req.content).length → chunkId "p" n = chunkId "p" k → n = k))
    ∧ C3Statement c5Cfg "p" 0 c3Req emptyState "p" := by
  have hcc : c3Req.content = content0 := rfl
  have hbigQ : (MAX_CHUNK_LENGTH : ℚ) * 1.5 < (c3Req.content.length : ℚ) := by
    rw [hcc, content0_len]
    norm_num [MAX_CHUNK_LENGTH]
  have hfreshPf : ∀ n, n < (chunkText c3Req.content).length →
      chunkId "p" n ∉ emptyState.memories.map (·.id) := by
    intro n _
    simp [emptyState]
  have hinjPf : ∀ n k, n < (chunkText c3Req.content).length →
      k < (chunkText c3Req.content).length → chunkId "p" n = chunkId "p" k → n = k := by
    intro n k hn hk _
    rw [hcc, content0_chunks] at hn hk
    simp at hn hk
    omega
  exact ⟨⟨rfl, rfl, rfl, hbigQ, hfreshPf, hinjPf⟩,
    C3_chunked_add_amended c5Cfg "p" 0 c3Req emptyState "p" rfl rfl rfl hbigQ hfreshPf
      hinjPf⟩

/-- C3 counterexample: a 3001-character add (over the 2250 auto-chunk
threshold) is stored as a single chunk record — not at least two — and that
record's content is the whole 3001-character text, exceeding the claimed
roughly-3000-character chunk bound. -/
theorem C3_counterexample :
    c3Req.autoChunk = true
    ∧ (MAX_CHUNK_LENGTH : ℚ) * 1.5 < (c3Req.content.length : ℚ)
    ∧ (add c5Cfg "p" 0 c3Req emptyState).1 = .ok (.chunked "p" 1 ["default"])
    ∧ (∃ m, (add c5Cfg "p" 0 c3Req emptyState).2.memories = [m]
        ∧ m.content = c3Req.content
        ∧ m.content.length = 3001
        ∧ MAX_CHUNK_LENGTH * 2 < m.content.length) := by
  have hcc : c3Req.content = content0 := rfl
  have hlen1 : (chunkText c3Req.content).length = 1 := by
    rw [hcc, content0_chunks]
    rfl
  have hbigQ : (MAX_CHUNK_LENGTH : ℚ) * 1.5 < (c3Req.content.length : ℚ) := by
    rw [hcc, content0_len]
    norm_num [MAX_CHUNK_LENGTH]
  have hguard : (c3Req.autoChunk
      && decide ((MAX_CHUNK_LENGTH : ℚ) * 1.5 < (c3Req.content.length : ℚ))) = true := by
    rw [show c3Req.autoChunk = true from rfl, decide_eq_true hbigQ]
    rfl
  obtain ⟨h1, h2, h3, h4, h5, h6, h7, h8⟩ :=
    addChunkLoop_spec c5Cfg 0 c3Req "p" (chunkText c3Req.content).length rfl
      (chunkText c3Req.content) 0 0 emptyState
      (fun n _ _ => by simp [emptyState])
      (fun n k _ hn2 _ hk2 _ => by
        rw [hcc, content0_chunks] at hn2 hk2
        simp at hn2 hk2
        omega)
      (fun h => absurd h (by omega))
  rw [Nat.zero_add] at h1
  have hadd := add_chunked_eq c5Cfg "p" 0 c3Req emptyState "p"
    (chunkText c3Req.content).length rfl hguard h1
  have hres : (add c5Cfg "p" 0 c3Req emptyState).1 = .ok (.chunked "p" 1 ["default"]) := by
    rw [hadd, hlen1]
    rfl
  have hstate : (add c5Cfg "p" 0 c3Req emptyState).2
      = (addChunkLoop c5Cfg 0 c3Req "p" (chunkText c3Req.content).length
          (chunkText c3Req.content) 0 0 emptyState).2 := by
    rw [hadd]
  have hids : (add c5Cfg "p" 0 c3Req emptyState).2.memories.map (·.id) = ["p"] := by
    rw [hstate, h2, hlen1]
    rw [show List.range 1 = [0] from rfl]
    simp [emptyState, chunkId]
  have hlen2 : (add c5Cfg "p" 0 c3Req emptyState).2.memories.length = 1 := by
    have hcl := congrArg List.length hids
    simpa using hcl
  obtain ⟨m, hm⟩ := List.length_eq_one.mp hlen2
  have h60 := h6 0 (by omega)
  rw [Nat.zero_add] at h60
  have hget : ∀ (hlt : 0 < (chunkText c3Req.content).length),
      (chunkText c3Req.content).get ⟨0, hlt⟩ = content0 := by
    have hgen : ∀ (l : List String), l = [content0] →
        ∀ (hlt : 0 < l.length), l.get ⟨0, hlt⟩ = content0 := by
      intro l hl
      subst hl
      intro hlt
      rfl
    exact hgen _ (by rw [hcc, content0_chunks])
  have h61 : m = chunkRow c3Req "p" (chunkText c3Req.content).length 0
      ((chunkText c3Req.content).get ⟨0, by omega⟩) 0 := by
    have hmem : chunkRow c3Req "p" (chunkText c3Req.content).length 0
        ((chunkText c3Req.content).get ⟨0, by omega⟩) 0
        ∈ (add c5Cfg "p" 0 c3Req emptyState).2.memories := by
      rw [hstate]
      exact h60
    rw [hm] at hmem
    exact (List.mem_singleton.mp hmem).symm
  have hmc : m.content = content0 := by
    rw [h61]
    simp only [chunkRow]
    exact hget _
  refine ⟨rfl, hbigQ, hres, m, hm, ?_, ?_, ?_⟩
  · rw [hmc]
    exact hcc.symm
  · rw [hmc, content0_len]
  · rw [hmc, content0_len]
    decide

/-! ## C2: deduplication merge -/

theorem find?_filter_of_imp (p q : α → Bool) :
    ∀ l : List α, (∀ x ∈ l, p x = true → q x = true) →
      (l.filter q).find? p = l.find? p := by
  intro l
  induction l with
  | nil => intro _; rfl
  | cons x rest ih =>
    intro h
    cases hq : q x with
    | true =>
      rw [List.filter_cons_of_pos hq]
      simp only [List.find?]
      cases hp : p x with
      | true => rfl
      | false => exact ih (fun y hy => h y (List.mem_cons_of_mem x hy))
    | false =>
      rw [List.filter_cons_of_neg (by simp [hq])]
      have hp : p x = false := by
        cases hp : p x with
        | false => rfl
        | true => exact absurd (h x (List.mem_cons_self x rest) hp) (by simp [hq])
      simp only [List.find?, hp]
      exact ih (fun y hy => h y (List.mem_cons_of_mem x hy))

theorem metaLookup_append (l1 l2 : List (String × String)) (k : String) :
    metaLookup (l1 ++ l2) k = (metaLookup l1 k).or (metaLookup l2 k) := by
  simp only [metaLookup, List.find?_append]
  cases l1.find? (fun p => p.1 == k) with
  | none => rfl
  | some v => rfl

theorem metaLookup_override (b : List (String × String)) :
    ∀ (a : List (String × String)) (k : String),
      metaLookup (a.map (fun p => (p.1, (metaLookup b p.1).getD p.2))) k
        = (metaLookup a k).map (fun v => (metaLookup b k).getD v) := by
  intro a
  induction a with
  | nil => intro k; rfl
  | cons x rest ih =>
    intro k
    simp only [List.map_cons, metaLookup, List.find?]
    cases hx : (x.1 == k) with
    | true =>
      have hk : x.1 = k := by simpa using hx
      simp only [hx]
      rw [hk]
      rfl
    | false =>
      simp only [hx]
      exact ih k

theorem metaLookup_jsSpread (a b : List (String × String)) (k : String) :
    metaLookup (jsSpread a b) k = (metaLookup b k).or (metaLookup a k) := by
  rw [jsSpread, metaLookup_append, metaLookup_override]
  cases ha : metaLookup a k with
  | some v =>
    cases hb : metaLookup b k with
    | some w => rfl
    | none => rfl
  | none =>
    have hfil : (b.filter (fun p =>
        (Option.map (fun x => x.2) (a.find? (fun p2 => p2.1 == p.1))).isNone)).find?
        (fun p => p.1 == k) = b.find? (fun p => p.1 == k) := by
      apply find?_filter_of_imp
      intro x hx hpx
      have hk : x.1 = k := by simpa using hpx
      have ha2 := ha
      simp only [metaLookup] at ha2
      rw [hk, ha2]
      rfl
    simp only [metaLookup]
    rw [hfil]
    cases b.find? (fun p => p.1 == k) with
    | some w => rfl
    | none => rfl

/-- The conclusion of the amended dedup claim: the add returns
`{ id, merged: true, content }` for the FIRST record of the scan window at
or above the similarity threshold, creates no new record, rewrites exactly
that record (longer content, spread metadata stamped with `_mergedAt`,
higher-weight importance), never downgrades importance, and the merged
metadata resolves each key to the newest value that defines it. -/
def C2Statement (cfg : EngineConfig) (fresh : String) (now : Int) (req : AddReq)
    (s : EngineState) (r0 : Memory) : Prop :=
  ((add cfg fresh now req s).1
      = .ok (.merged r0.id
          (if req.content.length ≤ r0.content.length then r0.content else req.content)))
  ∧ (add cfg fresh now req s).2.memories.map (·.id) = s.memories.map (·.id)
  ∧ (add cfg fresh now req s).2.memories = s.memories.map (fun m =>
      if m.id == r0.id then
        { m with
          content := if req.content.length ≤ r0.content.length then r0.content
            else req.content,
          summary := none,
          importance :=
            if IMPORTANCE_WEIGHTS r0.importance < IMPORTANCE_WEIGHTS req.importance
            then req.importance else r0.importance,
          metadata := jsSpread (jsSpread r0.metadata req.metadata)
            [("_mergedAt", isoTimestamp now)],
          embedding := r0.embedding,
          updated_at := now }
      else m)
  ∧ IMPORTANCE_WEIGHTS r0.importance
      ≤ IMPORTANCE_WEIGHTS
          (if IMPORTANCE_WEIGHTS r0.importance < IMPORTANCE_WEIGHTS req.importance
           then req.importance else r0.importance)
  ∧ IMPORTANCE_WEIGHTS
        (if IMPORTANCE_WEIGHTS r0.importance < IMPORTANCE_WEIGHTS req.importance
         then req.importance else r0.importance)
      = max (IMPORTANCE_WEIGHTS r0.importance) (IMPORTANCE_WEIGHTS req.importance)
  ∧ (if req.content.length ≤ r0.content.length then r0.content else req.content).length
      = max r0.content.length req.content.length
  ∧ (∀ k, metaLookup (jsSpread (jsSpread r0.metadata req.metadata)
        [("_mergedAt", isoTimestamp now)]) k
      = (metaLookup [("_mergedAt", isoTimestamp now)] k).or
          ((metaLookup req.metadata k).or (metaLookup r0.metadata k)))

/-- C2: with deduplication on, an embedding provider configured and the
auto-chunk guard off, when the duplicate scan hits a record `r0` (the FIRST
window row at cosine similarity at least 0.85 — not necessarily the record
the first add created), the add merges into `r0` instead of inserting. -/
theorem C2_dedup_merge_amended (cfg : EngineConfig) (ef : String → List ℚ) (fresh : String)
    (now : Int) (req : AddReq) (s : EngineState) (r0 : Memory)
    (hef : cfg.embedFn = some ef)
    (hded : req.deduplicate = true)
    (hguard : (req.autoChunk
      && decide ((MAX_CHUNK_LENGTH : ℚ) * 1.5 < (req.content.length : ℚ))) = false)
    (hfd : findDuplicate
        (getEmbedding ef cfg.hashFn cfg.embeddingCacheMaxSize s.embeddingCache
          req.content).1
        req.containerTags
        { s with embeddingCache :=
            (getEmbedding ef cfg.hashFn cfg.embeddingCacheMaxSize s.embeddingCache
              req.content).2 } = some r0) :
    C2Statement cfg fresh now req s r0 := by
  have hone : add cfg fresh now req s
      = (.ok (.merged r0.id
            (if req.content.length ≤ r0.content.length then r0.content else req.content)),
        { s with
            embeddingCache := (getEmbedding ef cfg.hashFn cfg.embeddingCacheMaxSize
              s.embeddingCache req.content).2,
            memories := s.memories.map (fun m =>
              if m.id == r0.id then
                { m with
                  content := if req.content.length ≤ r0.content.length then r0.content
                    else req.content,
                  summary := none,
                  importance :=
                    if IMPORTANCE_WEIGHTS r0.importance < IMPORTANCE_WEIGHTS req.importance
                    then req.importance else r0.importance,
                  metadata := jsSpread (jsSpread r0.metadata req.metadata)
                    [("_mergedAt", isoTimestamp now)],
                  embedding := r0.embedding,
                  updated_at := now }
              else m) }) := by
    rw [add, if_neg (by rw [hguard]; exact Bool.false_ne_true)]
    simp only [addCore, hef, hded, if_true]
    rw [hfd]
    dsimp only
    simp only [mergeMemory]
  refine ⟨?_, ?_, ?_, ?_, ?_, ?_, ?_⟩
  · rw [hone]
  · rw [hone]
    dsimp only
    rw [List.map_map]
    apply List.map_congr_left
    intro m _
    simp only [Function.comp]
    by_cases h : (m.id == r0.id) = true
    · rw [if_pos h]
    · rw [if_neg h]
  · rw [hone]
  · by_cases h : IMPORTANCE_WEIGHTS r0.importance < IMPORTANCE_WEIGHTS req.importance
    · rw [if_pos h]
      omega
    · rw [if_neg h]
  · by_cases h : IMPORTANCE_WEIGHTS r0.importance < IMPORTANCE_WEIGHTS req.importance
    · rw [if_pos h]
      omega
    · rw [if_neg h]
      omega
  · by_cases h : req.content.length ≤ r0.content.length
    · rw [if_pos h]
      omega
    · rw [if_neg h]
      omega
  · intro k
    rw [metaLookup_jsSpread, metaLookup_jsSpread]

/-- Embedding provider of the C2 scenario: contents `c1` and `c2` embed to
nearby vectors, everything else to the vector stored on the older record. -/
def cex2ef : String → List ℚ :=
  fun s => if s == "c1" then [3, 4] else if s == "c2" then [4, 3] else [24, 7]

def cex2Cfg : EngineConfig :=
  { embedFn := some cex2ef, hashFn := fun h => h, embeddingCacheMaxSize := 5000,
    hasFTS := false }

/-- A pre-existing record, updated more recently than the first add's
record, whose stored vector is also similar to the second content. -/
def cex2X : Memory :=
  { id := "x", content := "xx", summary := none, memory_type := .dynamic,
    importance := .normal, source := "user", metadata := [], embedding := some [24, 7],
    access_count := 0, last_accessed_at := none, is_deleted := false,
    created_at := 5, updated_at := 5 }

def cex2State0 : EngineState :=
  { memories := [cex2X], memTags := [("x", "default")], links := [],
    embeddingCache := [] }

def c1Req : AddReq := { content := "c1", customId := some "a1" }

def c2Req : AddReq := { content := "c2", customId := some "a2" }

/-- The record inserted by the first add. -/
def cex2A1 : Memory :=
  { id := "a1", content := "c1", summary := none, memory_type := .dynamic,
    importance := .normal, source := "user", metadata := [], embedding := some [3, 4],
    access_count := 0, last_accessed_at := none, is_deleted := false,
    created_at := 0, updated_at := 0 }

/-- The state after the first add. -/
def cex2State1 : EngineState :=
  { memories := [cex2X, cex2A1], memTags := [("x", "default"), ("a1", "default")],
    links := [], embeddingCache := [("c1", [3, 4])] }

theorem cos_c2_X : cosineSimilarity [4, 3] [24, 7] = 117 / 125 := by
  simp only [cosineSimilarity, List.zip, List.zipWith, List.foldl]
  rw [if_neg (by decide)]
  rw [show ((0 : ℚ) + 4 * 4 + 3 * 3) = 25 by norm_num,
    show ((0 : ℚ) + 24 * 24 + 7 * 7) = 625 by norm_num,
    show ((0 : ℚ) + 4 * 24 + 3 * 7) = 117 by norm_num,
    show (((25 : ℚ)) : ℝ) = (5 : ℝ) ^ 2 by norm_num,
    show (((625 : ℚ)) : ℝ) = (25 : ℝ) ^ 2 by norm_num,
    Real.sqrt_sq (by norm_num : (0 : ℝ) ≤ 5),
    Real.sqrt_sq (by norm_num : (0 : ℝ) ≤ 25)]
  rw [if_neg (by norm_num)]
  norm_num

theorem cos_c2_A : cosineSimilarity [4, 3] [3, 4] = 24 / 25 := by
  simp only [cosineSimilarity, List.zip, List.zipWith, List.foldl]
  rw [if_neg (by decide)]
  rw [show ((0 : ℚ) + 4 * 4 + 3 * 3) = 25 by norm_num,
    show ((0 : ℚ) + 3 * 3 + 4 * 4) = 25 by norm_num,
    show ((0 : ℚ) + 4 * 3 + 3 * 4) = 24 by norm_num,
    show (((25 : ℚ)) : ℝ) = (5 : ℝ) ^ 2 by norm_num,
    Real.sqrt_sq (by norm_num : (0 : ℝ) ≤ 5)]
  rw [if_neg (by norm_num)]
  norm_num

theorem cos_c1_X : cosineSimilarity [3, 4] [24, 7] = 4 / 5 := by
  simp only [cosineSimilarity, List.zip, List.zipWith, List.foldl]
  rw [if_neg (by decide)]
  rw [show ((0 : ℚ) + 3 * 3 + 4 * 4) = 25 by norm_num,
    show ((0 : ℚ) + 24 * 24 + 7 * 7) = 625 by norm_num,
    show ((0 : ℚ) + 3 * 24 + 4 * 7) = 100 by norm_num,
    show (((25 : ℚ)) : ℝ) = (5 : ℝ) ^ 2 by norm_num,
    show (((625 : ℚ)) : ℝ) = (25 : ℝ) ^ 2 by norm_num,
    Real.sqrt_sq (by norm_num : (0 : ℝ) ≤ 5),
    Real.sqrt_sq (by norm_num : (0 : ℝ) ≤ 25)]
  rw [if_neg (by norm_num)]
  norm_num

/-- The first add's duplicate scan misses: the only window row is `x`, at
similarity 0.8 below the threshold. -/
theorem cex2_findDup1 : findDuplicate
    (getEmbedding cex2ef cex2Cfg.hashFn cex2Cfg.embeddingCacheMaxSize
      cex2State0.embeddingCache c1Req.content).1
    c1Req.containerTags
    { cex2State0 with embeddingCache := (getEmbedding cex2ef cex2Cfg.hashFn
        cex2Cfg.embeddingCacheMaxSize cex2State0.embeddingCache c1Req.content).2 }
    = none := by
  rw [findDuplicate]
  rw [show dupWindow c1Req.containerTags
      { cex2State0 with embeddingCache := (getEmbedding cex2ef cex2Cfg.hashFn
          cex2Cfg.embeddingCacheMaxSize cex2State0.embeddingCache c1Req.content).2 }
      = [cex2X] from rfl]
  simp only [firstSimilar]
  rw [show (getEmbedding cex2ef cex2Cfg.hashFn cex2Cfg.embeddingCacheMaxSize
      cex2State0.embeddingCache c1Req.content).1 = [3, 4] from rfl,
    show cex2X.embedding.getD [] = [24, 7] from rfl, cos_c1_X]
  rw [if_neg (by norm_num [SIMILARITY_MERGE_THRESHOLD])]

/-- The second add's duplicate scan hits `x` first: the window is sorted by
`updated_at` descending, so the newer pre-existing record `x` (similarity
0.936) is scanned before the first add's record `a1` (similarity 0.96). -/
theorem cex2_findDup2 : findDuplicate
    (getEmbedding cex2ef cex2Cfg.hashFn cex2Cfg.embeddingCacheMaxSize
      cex2State1.embeddingCache c2Req.content).1
    c2Req.containerTags
    { cex2State1 with embeddingCache := (getEmbedding cex2ef cex2Cfg.hashFn
        cex2Cfg.embeddingCacheMaxSize cex2State1.embeddingCache c2Req.content).2 }
    = some cex2X := by
  rw [findDuplicate]
  rw [show dupWindow c2Req.containerTags
      { cex2State1 with embeddingCache := (getEmbedding cex2ef cex2Cfg.hashFn
          cex2Cfg.embeddingCacheMaxSize cex2State1.embeddingCache c2Req.content).2 }
      = [cex2X, cex2A1] from rfl]
  simp only [firstSimilar]
  rw [show (getEmbedding cex2ef cex2Cfg.hashFn cex2Cfg.embeddingCacheMaxSize
      cex2State1.embeddingCache c2Req.content).1 = [4, 3] from rfl,
    show cex2X.embedding.getD [] = [24, 7] from rfl, cos_c2_X]
  rw [if_pos (by norm_num [SIMILARITY_MERGE_THRESHOLD])]

theorem cex2_guard2 : (c2Req.autoChunk
    && decide ((MAX_CHUNK_LENGTH : ℚ) * 1.5 < (c2Req.content.length : ℚ))) = false := by
  have hd : decide ((MAX_CHUNK_LENGTH : ℚ) * 1.5 < ((c2Req.content.length : ℚ))) = false :=
    decide_eq_false (by
      rw [show c2Req.content.length = 2 from rfl]
      norm_num [MAX_CHUNK_LENGTH])
  rw [hd, Bool.and_false]

theorem C2_witness :
    (cex2Cfg.embedFn = some cex2ef
      ∧ c2Req.deduplicate = true
      ∧ (c2Req.autoChunk
          && decide ((MAX_CHUNK_LENGTH : ℚ) * 1.5 < (c2Req.content.length : ℚ))) = false
      ∧ findDuplicate (getEmbedding cex2ef cex2Cfg.hashFn cex2Cfg.embeddingCacheMaxSize
            cex2State1.embeddingCache c2Req.content).1 c2Req.containerTags
          { cex2State1 with embeddingCache := (getEmbedding cex2ef cex2Cfg.hashFn
              cex2Cfg.embeddingCacheMaxSize cex2State1.embeddingCache c2Req.content).2 }
          = some cex2X)
    ∧ C2Statement cex2Cfg "f2" 10 c2Req cex2State1 cex2X :=
  ⟨⟨rfl, rfl, cex2_guard2, cex2_findDup2⟩,
    C2_dedup_merge_amended cex2Cfg cex2ef "f2" 10 c2Req cex2State1 cex2X rfl rfl
      cex2_guard2 cex2_findDup2⟩

theorem cex2_guard1 : (c1Req.autoChunk
    && decide ((MAX_CHUNK_LENGTH : ℚ) * 1.5 < (c1Req.content.length : ℚ))) = false := by
  have hd : decide ((MAX_CHUNK_LENGTH : ℚ) * 1.5 < ((c1Req.content.length : ℚ))) = false :=
    decide_eq_false (by
      rw [show c1Req.content.length = 2 from rfl]
      norm_num [MAX_CHUNK_LENGTH])
  rw [hd, Bool.and_false]

/-- The first add misses the duplicate scan and inserts record `a1`. -/
theorem cex2_add1 : add cex2Cfg "f1" 0 c1Req cex2State0
    = (.ok (.added "a1" "c1" none ["default"] .dynamic .normal), cex2State1) := by
  rw [add, if_neg (by rw [cex2_guard1]; exact Bool.false_ne_true)]
  simp only [addCore, show cex2Cfg.embedFn = some cex2ef from rfl,
    show c1Req.deduplicate = true from rfl, if_true]
  rw [cex2_findDup1]
  rfl

/-- The second add merges into `x`, the first window row over the
threshold. -/
theorem cex2_add2 : (add cex2Cfg "f2" 10 c2Req cex2State1).1
    = .ok (.merged "x" "xx") := by
  rw [add, if_neg (by rw [cex2_guard2]; exact Bool.false_ne_true)]
  simp only [addCore, show cex2Cfg.embedFn = some cex2ef from rfl,
    show c2Req.deduplicate = true from rfl, if_true]
  rw [cex2_findDup2]
  rfl

/-- C2 counterexample: both adds use the same default tag scope, dedup and
an embedding provider; the second content is at similarity 0.96 to the
record the first add created, which sits in the scan window — yet the
second add merges into the unrelated, more recently updated record `x`,
not into the first record `a1`. -/
theorem C2_counterexample :
    (add cex2Cfg "f1" 0 c1Req cex2State0
        = (.ok (.added "a1" "c1" none ["default"] .dynamic .normal), cex2State1))
    ∧ cex2A1 ∈ dupWindow c2Req.containerTags cex2State1
    ∧ cex2A1.id = "a1"
    ∧ SIMILARITY_MERGE_THRESHOLD
        ≤ cosineSimilarity (cex2ef c2Req.content) (cex2A1.embedding.getD [])
    ∧ (add cex2Cfg "f2" 10 c2Req cex2State1).1 = .ok (.merged "x" "xx")
    ∧ "x" ≠ "a1" := by
  refine ⟨cex2_add1, ?_, rfl, ?_, cex2_add2, by decide⟩
  · rw [show dupWindow c2Req.containerTags cex2State1 = [cex2X, cex2A1] from rfl]
    exact List.mem_cons_of_mem _ (List.mem_cons_self _ _)
  · rw [show cex2ef c2Req.content = [4, 3] from rfl,
      show cex2A1.embedding.getD [] = [3, 4] from rfl, cos_c2_A]
    norm_num [SIMILARITY_MERGE_THRESHOLD]
